import Mathlib

/-!
# Verification of the code-to-docs incremental index/cache subsystem

Shallow embedding of `scripts/doc_index.py`, `scripts/suggest_docs.py` and
`scripts/security_utils.py`.  Python dicts are modelled as association lists
with unique keys, file contents as strings, the SHA-256 fingerprinter as an
(injective where relevant) function parameter `h : String → String`, and the
external oracle (Gemini) and the git subprocess layer as explicit input
parameters describing their observable responses.
-/

namespace CodeToDocs

/-! ## Association-list model of Python dicts -/

/-- Python `d[k]` / `k in d`: first-match lookup in an association list. -/
def alookup {κ α : Type} [DecidableEq κ] (k : κ) : List (κ × α) → Option α
  | [] => none
  | (k', v) :: rest => if k' = k then some v else alookup k rest

/-- Python `d[k] = v`: replace the binding for `k` if present, else append. -/
def aupdate {κ α : Type} [DecidableEq κ] (k : κ) (v : α) : List (κ × α) → List (κ × α)
  | [] => [(k, v)]
  | (k', v') :: rest => if k' = k then (k, v) :: rest else (k', v') :: aupdate k v rest

theorem alookup_eq_some_mem {κ α : Type} [DecidableEq κ] {k : κ} {v : α}
    {l : List (κ × α)} (h : alookup k l = some v) : (k, v) ∈ l := by
  induction l with
  | nil => simp [alookup] at h
  | cons p rest ih =>
    obtain ⟨k', v'⟩ := p
    by_cases hk : k' = k
    · subst hk
      simp [alookup] at h
      subst h
      exact List.mem_cons_self _ _
    · simp [alookup, hk] at h
      exact List.mem_cons_of_mem _ (ih h)

theorem mem_alookup_of_nodup {κ α : Type} [DecidableEq κ] {k : κ} {v : α}
    {l : List (κ × α)} (hnd : (l.map Prod.fst).Nodup) (h : (k, v) ∈ l) :
    alookup k l = some v := by
  induction l with
  | nil => simp at h
  | cons p rest ih =>
    obtain ⟨k', v'⟩ := p
    simp only [List.map_cons, List.nodup_cons] at hnd
    rcases List.mem_cons.1 h with h1 | h2
    · obtain ⟨hk, hv⟩ := Prod.mk.inj h1.symm
      subst hk; subst hv
      simp [alookup]
    · have hne : k' ≠ k := by
        intro he
        subst he
        exact hnd.1 (List.mem_map.2 ⟨(k', v), h2, rfl⟩)
      simp [alookup, hne]
      exact ih hnd.2 h2

theorem alookup_aupdate_self {κ α : Type} [DecidableEq κ] (k : κ) (v : α)
    (l : List (κ × α)) : alookup k (aupdate k v l) = some v := by
  induction l with
  | nil => simp [alookup, aupdate]
  | cons p rest ih =>
    obtain ⟨k', v'⟩ := p
    by_cases hk : k' = k
    · simp [aupdate, hk, alookup]
    · simp [aupdate, hk, alookup, ih]

theorem alookup_aupdate_ne {κ α : Type} [DecidableEq κ] {k k' : κ} (v : α)
    (l : List (κ × α)) (hne : k ≠ k') : alookup k' (aupdate k v l) = alookup k' l := by
  induction l with
  | nil => simp [alookup, aupdate, hne]
  | cons p rest ih =>
    obtain ⟨k1, v1⟩ := p
    by_cases hk : k1 = k
    · subst hk
      simp [aupdate, alookup, hne]
    · simp [aupdate, hk, alookup]
      by_cases hk' : k1 = k'
      · simp [hk']
      · simp [hk', ih]

/-! ## Python dict equality

`stored_hashes != current_hashes` compares dicts by key set and values.
On association lists with unique keys this is the following boolean test. -/

/-- Python `==` on two dicts (modelled as association lists): every binding of
each appears in the other. -/
def dictBeq (a b : List (String × String)) : Bool :=
  a.all (fun p => alookup p.1 b == some p.2) && b.all (fun p => alookup p.1 a == some p.2)

theorem dictBeq_iff {a b : List (String × String)}
    (hna : (a.map Prod.fst).Nodup) (hnb : (b.map Prod.fst).Nodup) :
    dictBeq a b = true ↔ ∀ k, alookup k a = alookup k b := by
  constructor
  · intro h k
    simp only [dictBeq, Bool.and_eq_true, List.all_eq_true, beq_iff_eq] at h
    obtain ⟨h1, h2⟩ := h
    cases hcase : alookup k a with
    | some v =>
      have hm := alookup_eq_some_mem hcase
      exact (h1 (k, v) hm).symm
    | none =>
      cases hcase' : alookup k b with
      | none => rfl
      | some w =>
        have hm := alookup_eq_some_mem hcase'
        have := h2 (k, w) hm
        rw [hcase] at this
        exact absurd this (by simp)
  · intro h
    simp only [dictBeq, Bool.and_eq_true, List.all_eq_true, beq_iff_eq]
    constructor
    · intro p hp
      rw [← h p.1]
      exact mem_alookup_of_nodup hna hp
    · intro p hp
      rw [h p.1]
      exact mem_alookup_of_nodup hnb hp

/-! ## Content Fingerprinter and documentation tree

`hash_file` (SHA-256 of a file's bytes) is an external cryptographic
primitive; it is modelled by a function parameter `h : String → String`.
The documentation tree scan `get_docs_in_folder` is modelled by an
environment `fs : String → List (String × String)` mapping an area (folder)
name to the list of `(relative path, file bytes)` pairs found under it. -/

/-- `get_folder_doc_hashes(folder)`: the current relative-path → digest map of
an area, obtained by hashing every documentation file in the folder
(doc_index.py lines 180–199). -/
def get_folder_doc_hashes (h : String → String) (fs : String → List (String × String))
    (folder : String) : List (String × String) :=
  (fs folder).map (fun pc => (pc.1, h pc.2))

/-- One entry of the folder manifest: build timestamp plus the stored
path → digest map (`manifest["folders"][folder]`). -/
structure FolderEntry where
  built : String
  doc_hashes : List (String × String)
deriving DecidableEq

/-- The index manifest (`manifest.json`): version plus the per-folder map. -/
structure Manifest where
  version : String
  folders : List (String × FolderEntry)
deriving DecidableEq

/-- `folder_needs_reindex(folder, manifest)` (doc_index.py lines 202–217):
`True` when the folder has no manifest entry, otherwise `True` exactly when
the stored digest map differs (Python `!=`) from the freshly computed one. -/
def folder_needs_reindex (h : String → String) (fs : String → List (String × String))
    (folder : String) (m : Manifest) : Bool :=
  match alookup folder m.folders with
  | none => true
  | some e => !(dictBeq e.doc_hashes (get_folder_doc_hashes h fs folder))

/-! ## Build Orchestrator (`build_all_indexes`, doc_index.py lines 376–439)

The worker pool and the `as_completed` loop are serialised as a left fold
over the stale folders: each area's effect touches only its own manifest
key, so any completion order yields the same manifest.  The outcome of one
`build_index_for_folder_with_retry` call (plus the subsequent `save_index` /
`get_folder_doc_hashes` processing, which can raise on I/O errors) is an
environment parameter `build : String → BuildOutcome`. -/

/-- Observable outcome of building one area: the retry wrapper returned a
value (`None` or index text — the wrapper swallows its own exceptions), or
an exception escaped while processing the completed future. -/
inductive BuildOutcome where
  | ret (r : Option String)
  | exn (msg : String)
deriving DecidableEq

/-- The folders selected for rebuild: `force or folder_needs_reindex(...)`
(doc_index.py lines 392–397).  Every oracle call of the run is made on
behalf of exactly one member of this list. -/
def folders_to_build (h : String → String) (fs : String → List (String × String))
    (force : Bool) (m : Manifest) (docFolders : List String) : List String :=
  docFolders.filter (fun f => force || folder_needs_reindex h fs f m)

/-- Processing of one completed build (doc_index.py lines 414–431):
non-empty index text saves the index and replaces the folder's manifest
entry with freshly computed hashes; `None`/empty text records "empty";
an exception records "error: …".  Only the success branch touches the
manifest. -/
def build_step (h : String → String) (fs : String → List (String × String)) (now : String)
    (build : String → BuildOutcome) (acc : Manifest × List (String × String))
    (f : String) : Manifest × List (String × String) :=
  match build f with
  | .ret (some text) =>
    if text ≠ "" then
      ({ acc.1 with folders := aupdate f ⟨now, get_folder_doc_hashes h fs f⟩ acc.1.folders },
        acc.2 ++ [(f, "success")])
    else (acc.1, acc.2 ++ [(f, "empty")])
  | .ret none => (acc.1, acc.2 ++ [(f, "empty")])
  | .exn msg => (acc.1, acc.2 ++ [(f, "error: " ++ msg)])

/-- `build_all_indexes(force)`: selects stale folders, dispatches builds, and
returns the final manifest together with the per-area results list.
When nothing is stale it returns early ("All indexes are up to date") with
the manifest untouched and no builds dispatched. -/
def build_all_indexes (h : String → String) (fs : String → List (String × String))
    (force : Bool) (m : Manifest) (docFolders : List String) (now : String)
    (build : String → BuildOutcome) : Manifest × List (String × String) :=
  let toBuild := folders_to_build h fs force m docFolders
  if toBuild = [] then (m, [])
  else toBuild.foldl (build_step h fs now build) (m, [])

/-- C1: `folder_needs_reindex(A, M)` is true iff area `A` has no entry in the
manifest's folders map or the current path → digest map differs from the
stored one at some key (a file added, removed, or with a changed digest);
when the stored map exactly equals the current map it is false. -/
theorem C1_folder_needs_reindex_iff (h : String → String)
    (fs : String → List (String × String)) (folder : String) (m : Manifest)
    (hstored : ∀ e, alookup folder m.folders = some e → (e.doc_hashes.map Prod.fst).Nodup)
    (hcur : ((get_folder_doc_hashes h fs folder).map Prod.fst).Nodup) :
    folder_needs_reindex h fs folder m = true ↔
      (alookup folder m.folders = none ∨
        ∃ e, alookup folder m.folders = some e ∧
          ∃ k, alookup k e.doc_hashes ≠ alookup k (get_folder_doc_hashes h fs folder)) := by
  unfold folder_needs_reindex
  cases hl : alookup folder m.folders with
  | none => simp
  | some e =>
    have hiff := dictBeq_iff (a := e.doc_hashes) (b := get_folder_doc_hashes h fs folder)
      (hstored e hl) hcur
    constructor
    · intro ht
      right
      refine ⟨e, rfl, ?_⟩
      simp only [Bool.not_eq_true'] at ht
      by_contra hall
      push_neg at hall
      have : dictBeq e.doc_hashes (get_folder_doc_hashes h fs folder) = true :=
        hiff.2 hall
      rw [this] at ht
      exact absurd ht (by simp)
    · rintro (hn | ⟨e', he', k, hk⟩)
      · exact absurd hn (by simp)
      · obtain rfl : e = e' := Option.some.inj he'
        simp only [Bool.not_eq_true']
        by_contra hbeq
        simp only [Bool.not_eq_false] at hbeq
        exact hk (hiff.1 hbeq k)

/-- Witness for C1 on a concrete stale instance: area "guides" has a stored
digest for content "x" while the file now hashes to "y", so the staleness
check returns true. -/
theorem C1_folder_needs_reindex_iff_witness :
    folder_needs_reindex id (fun f => if f = "guides" then [("guides/a.md", "y")] else [])
      "guides" ⟨"1.0", [("guides", ⟨"t0", [("guides/a.md", "x")]⟩)]⟩ = true := by
  have h := C1_folder_needs_reindex_iff id
    (fun f => if f = "guides" then [("guides/a.md", "y")] else [])
    "guides" ⟨"1.0", [("guides", ⟨"t0", [("guides/a.md", "x")]⟩)]⟩
    (by
      intro e he
      simp only [alookup, if_pos rfl] at he
      rw [← Option.some.inj he]
      decide)
    (by decide)
  refine h.2 (Or.inr ⟨⟨"t0", [("guides/a.md", "x")]⟩, by decide, "guides/a.md", by decide⟩)

/-- C5: without the force flag, every area whose files are unchanged relative
to its stored manifest entry is skipped (it is never put in the build list,
so no oracle call is made for it), and when every area is unchanged the
build list is empty and the orchestrator returns early with the manifest
untouched and zero builds dispatched — zero calls to the external oracle. -/
theorem C5_fresh_areas_skip_oracle (h : String → String)
    (fs : String → List (String × String)) (m : Manifest) (docFolders : List String) :
    (∀ f, folder_needs_reindex h fs f m = false →
      f ∉ folders_to_build h fs false m docFolders)
    ∧ ((∀ f ∈ docFolders, folder_needs_reindex h fs f m = false) →
        folders_to_build h fs false m docFolders = [] ∧
        ∀ now build, build_all_indexes h fs false m docFolders now build = (m, [])) := by
  constructor
  · intro f hfresh hmem
    simp only [folders_to_build, List.mem_filter, Bool.false_or] at hmem
    rw [hfresh] at hmem
    exact absurd hmem.2 (by simp)
  · intro hall
    have hnil : folders_to_build h fs false m docFolders = [] := by
      simp only [folders_to_build, Bool.false_or]
      exact List.filter_eq_nil_iff.2 (fun f hf => by rw [hall f hf]; simp)
    refine ⟨hnil, fun now build => ?_⟩
    unfold build_all_indexes
    rw [hnil]
    simp

/-- Witness for C5: a single area "guides" whose stored digests equal the
current ones is skipped and the orchestrator performs no builds. -/
theorem C5_fresh_areas_skip_oracle_witness :
    folders_to_build id (fun f => if f = "guides" then [("guides/a.md", "x")] else [])
      false ⟨"1.0", [("guides", ⟨"t0", [("guides/a.md", "x")]⟩)]⟩ ["guides"] = [] ∧
    build_all_indexes id (fun f => if f = "guides" then [("guides/a.md", "x")] else [])
      false ⟨"1.0", [("guides", ⟨"t0", [("guides/a.md", "x")]⟩)]⟩ ["guides"] "t1"
      (fun _ => .ret (some "index text")) =
      (⟨"1.0", [("guides", ⟨"t0", [("guides/a.md", "x")]⟩)]⟩, []) := by
  have h := (C5_fresh_areas_skip_oracle id
    (fun f => if f = "guides" then [("guides/a.md", "x")] else [])
    ⟨"1.0", [("guides", ⟨"t0", [("guides/a.md", "x")]⟩)]⟩ ["guides"]).2
    (by intro f hf; fin_cases hf; decide)
  exact ⟨h.1, h.2 "t1" (fun _ => .ret (some "index text"))⟩

/-- The result string recorded for one area (doc_index.py lines 417–431):
`"success"`, `"empty"`, or `"error: …"`. -/
def outcomeLabel : BuildOutcome → String
  | .ret (some t) => if t ≠ "" then "success" else "empty"
  | .ret none => "empty"
  | .exn msg => "error: " ++ msg

theorem error_label_ne_success (msg : String) : ("error: " ++ msg) ≠ "success" := by
  intro hcontra
  have h2 : ("error: " ++ msg).data = "success".data := congrArg String.data hcontra
  rw [String.data_append] at h2
  simp at h2

theorem build_step_snd (h : String → String) (fs : String → List (String × String))
    (now : String) (build : String → BuildOutcome)
    (acc : Manifest × List (String × String)) (g : String) :
    (build_step h fs now build acc g).2 = acc.2 ++ [(g, outcomeLabel (build g))] := by
  unfold build_step outcomeLabel
  cases build g with
  | ret r =>
    cases r with
    | none => rfl
    | some t => by_cases ht : t = "" <;> simp [ht]
  | exn msg => rfl

theorem build_step_fst_success (h : String → String) (fs : String → List (String × String))
    (now : String) (build : String → BuildOutcome)
    (acc : Manifest × List (String × String)) (g : String)
    (hs : outcomeLabel (build g) = "success") :
    (build_step h fs now build acc g).1.folders =
      aupdate g ⟨now, get_folder_doc_hashes h fs g⟩ acc.1.folders := by
  cases hb : build g with
  | ret r =>
    cases r with
    | none =>
      simp only [outcomeLabel, hb] at hs
      exact absurd hs (by decide)
    | some t =>
      simp only [outcomeLabel, hb] at hs
      by_cases ht : t = ""
      · rw [if_neg (by simp [ht])] at hs
        exact absurd hs (by decide)
      · simp [build_step, hb, ht]
  | exn msg =>
    simp only [outcomeLabel, hb] at hs
    exact absurd hs (error_label_ne_success msg)

theorem build_step_fst_other (h : String → String) (fs : String → List (String × String))
    (now : String) (build : String → BuildOutcome)
    (acc : Manifest × List (String × String)) (g : String)
    (hs : outcomeLabel (build g) ≠ "success") :
    (build_step h fs now build acc g).1 = acc.1 := by
  cases hb : build g with
  | ret r =>
    cases r with
    | none => simp [build_step, hb]
    | some t =>
      simp only [outcomeLabel, hb] at hs
      by_cases ht : t = ""
      · simp [build_step, hb, ht]
      · rw [if_pos (by simp [ht])] at hs
        exact absurd rfl hs
  | exn msg => simp [build_step, hb]

theorem build_step_fst_ne (h : String → String) (fs : String → List (String × String))
    (now : String) (build : String → BuildOutcome)
    (acc : Manifest × List (String × String)) (g f : String) (hne : f ≠ g) :
    alookup f (build_step h fs now build acc g).1.folders = alookup f acc.1.folders := by
  by_cases hs : outcomeLabel (build g) = "success"
  · rw [build_step_fst_success h fs now build acc g hs]
    exact alookup_aupdate_ne _ _ (fun he => hne he.symm)
  · rw [build_step_fst_other h fs now build acc g hs]

theorem build_fold_lookup_not_mem (h : String → String)
    (fs : String → List (String × String)) (now : String) (build : String → BuildOutcome) :
    ∀ (l : List String) (acc : Manifest × List (String × String)) (f : String), f ∉ l →
      alookup f (l.foldl (build_step h fs now build) acc).1.folders =
        alookup f acc.1.folders := by
  intro l
  induction l with
  | nil => intro acc f _; rfl
  | cons g l' ih =>
    intro acc f hf
    have hfg : f ≠ g := fun he => hf (he ▸ List.mem_cons_self g l')
    have hfl : f ∉ l' := fun hm => hf (List.mem_cons_of_mem g hm)
    rw [List.foldl_cons, ih _ f hfl, build_step_fst_ne h fs now build acc g f hfg]

theorem build_fold_results_not_mem (h : String → String)
    (fs : String → List (String × String)) (now : String) (build : String → BuildOutcome) :
    ∀ (l : List String) (acc : Manifest × List (String × String)) (f : String) (r : String),
      f ∉ l →
      ((f, r) ∈ (l.foldl (build_step h fs now build) acc).2 ↔ (f, r) ∈ acc.2) := by
  intro l
  induction l with
  | nil => intro acc f r _; rfl
  | cons g l' ih =>
    intro acc f r hf
    have hfg : f ≠ g := fun he => hf (he ▸ List.mem_cons_self g l')
    have hfl : f ∉ l' := fun hm => hf (List.mem_cons_of_mem g hm)
    rw [List.foldl_cons, ih _ f r hfl, build_step_snd]
    simp [hfg]

theorem build_fold_spec (h : String → String)
    (fs : String → List (String × String)) (now : String) (build : String → BuildOutcome) :
    ∀ (l : List String) (acc : Manifest × List (String × String)), l.Nodup →
      ∀ f ∈ l,
        (∀ r, ((f, r) ∈ (l.foldl (build_step h fs now build) acc).2 ↔
          ((f, r) ∈ acc.2 ∨ r = outcomeLabel (build f))))
        ∧ (outcomeLabel (build f) = "success" →
            alookup f (l.foldl (build_step h fs now build) acc).1.folders =
              some ⟨now, get_folder_doc_hashes h fs f⟩)
        ∧ (outcomeLabel (build f) ≠ "success" →
            alookup f (l.foldl (build_step h fs now build) acc).1.folders =
              alookup f acc.1.folders) := by
  intro l
  induction l with
  | nil => intro acc _ f hf; exact absurd hf (List.not_mem_nil f)
  | cons g l' ih =>
    intro acc hnd f hf
    have hg : g ∉ l' := (List.nodup_cons.1 hnd).1
    have hnd' : l'.Nodup := (List.nodup_cons.1 hnd).2
    rw [List.foldl_cons]
    rcases List.mem_cons.1 hf with rfl | hfl
    · refine ⟨?_, ?_, ?_⟩
      · intro r
        rw [build_fold_results_not_mem h fs now build l' _ f r hg, build_step_snd]
        simp
      · intro hs
        rw [build_fold_lookup_not_mem h fs now build l' _ f hg,
          build_step_fst_success h fs now build acc f hs]
        exact alookup_aupdate_self _ _ _
      · intro hs
        rw [build_fold_lookup_not_mem h fs now build l' _ f hg,
          build_step_fst_other h fs now build acc f hs]
    · have hfg : f ≠ g := fun he => hg (he ▸ hfl)
      obtain ⟨hres, hsucc, hother⟩ := ih (build_step h fs now build acc g) hnd' f hfl
      refine ⟨?_, hsucc, ?_⟩
      · intro r
        rw [hres r, build_step_snd]
        simp [hfg]
      · intro hs
        rw [hother hs, build_step_fst_ne h fs now build acc g f hfg]

/-- C8: an area whose build did not succeed (failure after retries, or no
content) gets a non-success result and its manifest entry is left exactly as
before the run — so an area that was stale stays stale for the next run;
an area whose build succeeded gets its entry replaced with the freshly
computed digest map; and areas that were never dispatched are untouched. -/
theorem C8_failure_leaves_manifest_entry (h : String → String)
    (fs : String → List (String × String)) (force : Bool) (m : Manifest)
    (docFolders : List String) (now : String) (build : String → BuildOutcome)
    (hnd : docFolders.Nodup) :
    (∀ f r, (f, r) ∈ (build_all_indexes h fs force m docFolders now build).2 →
      (r ≠ "success" →
        alookup f (build_all_indexes h fs force m docFolders now build).1.folders =
          alookup f m.folders ∧
        (folder_needs_reindex h fs f m = true →
          folder_needs_reindex h fs f (build_all_indexes h fs force m docFolders now build).1
            = true))
      ∧ (r = "success" →
        alookup f (build_all_indexes h fs force m docFolders now build).1.folders =
          some ⟨now, get_folder_doc_hashes h fs f⟩))
    ∧ (∀ f, f ∉ folders_to_build h fs force m docFolders →
        alookup f (build_all_indexes h fs force m docFolders now build).1.folders =
          alookup f m.folders) := by
  have hstale : ∀ (m' : Manifest) (f : String),
      alookup f m'.folders = alookup f m.folders →
      folder_needs_reindex h fs f m = true → folder_needs_reindex h fs f m' = true := by
    intro m' f heq hst
    unfold folder_needs_reindex at hst ⊢
    rw [heq]
    exact hst
  unfold build_all_indexes
  by_cases hnil : folders_to_build h fs force m docFolders = []
  · rw [hnil]
    simp
  · rw [if_neg hnil]
    have hndb : (folders_to_build h fs force m docFolders).Nodup := hnd.filter _
    constructor
    · intro f r hmem
      have hfin : f ∈ folders_to_build h fs force m docFolders := by
        by_contra hfn
        have := (build_fold_results_not_mem h fs now build _ (m, []) f r hfn).1 hmem
        simp at this
      obtain ⟨hres, hsucc, hother⟩ := build_fold_spec h fs now build _ (m, []) hndb f hfin
      have hr : r = outcomeLabel (build f) := by
        rcases (hres r).1 hmem with hin | hlab
        · exact absurd hin (List.not_mem_nil _)
        · exact hlab
      constructor
      · intro hrne
        have hne : outcomeLabel (build f) ≠ "success" := fun hc => hrne (hr.trans hc)
        have hl := hother hne
        exact ⟨hl, hstale _ f hl⟩
      · intro hreq
        exact hsucc (hr ▸ hreq)
    · intro f hfn
      exact build_fold_lookup_not_mem h fs now build _ (m, []) f hfn

/-- Witness for C8: two stale areas; "a" builds successfully and gets a fresh
entry, "b" raises and keeps its (absent) entry, staying stale. -/
theorem C8_failure_leaves_manifest_entry_witness :
    alookup "b" (build_all_indexes id (fun f => [(f ++ "/x.md", "c")]) false
        ⟨"1.0", []⟩ ["a", "b"] "t1"
        (fun f => if f = "a" then .ret (some "idx") else .exn "boom")).1.folders = none ∧
    alookup "a" (build_all_indexes id (fun f => [(f ++ "/x.md", "c")]) false
        ⟨"1.0", []⟩ ["a", "b"] "t1"
        (fun f => if f = "a" then .ret (some "idx") else .exn "boom")).1.folders =
      some ⟨"t1", [("a/x.md", "c")]⟩ := by
  have hmain := (C8_failure_leaves_manifest_entry id (fun f => [(f ++ "/x.md", "c")]) false
    ⟨"1.0", []⟩ ["a", "b"] "t1"
    (fun f => if f = "a" then .ret (some "idx") else .exn "boom") (by decide)).1
  constructor
  · have hb := (hmain "b" "error: boom" (by decide)).1 (by decide)
    rw [hb.1]
    decide
  · have ha := (hmain "a" "success" (by decide)).2 rfl
    rw [ha]
    decide

/-! ## Text helpers

Python string operations used by the matcher, modelled on `List Char`
(`str.strip`, `str.split`, `str.startswith`/`endswith`, `str.upper`).
Modelling texts as character lists keeps every definition structurally
recursive and hence executable by `decide`. -/

/-- Does `t` occur at the start of `s`? (Python `startswith` / slice test.) -/
def leadsWith : List Char → List Char → Bool
  | [], _ => true
  | _ :: _, [] => false
  | a :: t, b :: s => a = b && leadsWith t s

/-- Python `endswith`. -/
def endsWithL (t s : List Char) : Bool := leadsWith t.reverse s.reverse

/-- Whitespace for `str.strip` (the common ASCII whitespace). -/
def isWS (c : Char) : Bool := c = ' ' || c = '\n' || c = '\t' || c = '\r'

/-- Python `str.strip()`. -/
def trimL (s : List Char) : List Char :=
  ((s.dropWhile isWS).reverse.dropWhile isWS).reverse

/-- Python `str.split(ch)`: split on every occurrence of one character. -/
def splitOnCharL (ch : Char) : List Char → List (List Char)
  | [] => [[]]
  | c :: rest =>
    match splitOnCharL ch rest with
    | [] => if c = ch then [[], []] else [[c]]
    | g :: gs => if c = ch then [] :: g :: gs else (c :: g) :: gs

/-- Join groups with a newline (inverse of splitting on `'\n'`). -/
def intercalNL : List (List Char) → List Char
  | [] => []
  | [g] => g
  | g :: gs => g ++ '\n' :: intercalNL gs

/-- Python `s.split("\n", 1)[1]`: everything after the first newline;
`none` models the `IndexError` raised when there is no newline. -/
def splitFirstNL (s : List Char) : Option (List Char) :=
  match splitOnCharL '\n' s with
  | [] => none
  | [_] => none
  | _ :: rest => some (intercalNL rest)

/-- Python `s.rsplit("\n", 1)[0]`: everything before the last newline
(the whole string when there is none). -/
def dropLastNLGroup (s : List Char) : List Char :=
  match splitOnCharL '\n' s with
  | [] => []
  | [x] => x
  | gs => intercalNL gs.dropLast

/-- The markdown code-fence marker. -/
def fenceMark : List Char := ['`', '`', '`']

/-- Markdown-fence cleanup of an oracle response (doc_index.py lines 848–855):
strip, drop a leading ```-line, drop a trailing ```-line, strip again.
`none` models the `IndexError` when a response is exactly "```" with no
newline (caught by the surrounding generic `except`). -/
def stripFences (s : List Char) : Option (List Char) :=
  let t := trimL s
  match (if leadsWith fenceMark t then splitFirstNL t else some t) with
  | none => none
  | some t2 =>
    let t3 := if endsWithL fenceMark t2 then dropLastNLGroup t2 else t2
    some (trimL t3)

/-- Order-preserving deduplication, Python `list(dict.fromkeys(xs))` and the
`seen`-set loop of suggest_docs.py lines 383–389. -/
def dedupFirstGo {α : Type} [DecidableEq α] (seen : List α) : List α → List α
  | [] => []
  | x :: xs => if x ∈ seen then dedupFirstGo seen xs else x :: dedupFirstGo (x :: seen) xs

/-- First-seen-order deduplication of a list. -/
def dedupFirst {α : Type} [DecidableEq α] (l : List α) : List α := dedupFirstGo [] l

/-- Fixed-size batching (`all_folders[i:i+BATCH_SIZE]` slices): `chunkGo`
carries the chunk capacity, the current chunk (reversed) and the rest. -/
def chunkGo {α : Type} (k : Nat) : Nat → List α → List α → List (List α)
  | _, cur, [] => [cur.reverse]
  | 0, cur, x :: xs => cur.reverse :: chunkGo k (k - 1) [x] xs
  | c + 1, cur, x :: xs => chunkGo k c (x :: cur) xs

/-- Partition a list into consecutive chunks of size `n` (last one shorter). -/
def chunkBy {α : Type} (n : Nat) : List α → List (List α)
  | [] => []
  | x :: xs => chunkGo n (n - 1) [x] xs

/-! ## Relevance Matcher, area-level stage
(`find_relevant_areas_from_indexes` / `_process_area_batch`,
doc_index.py lines 704–886)

`client.models.generate_content` plus the `response.text` accessor is the
external oracle: per attempt it either raises, raises on text access, or
yields response text.  `json.loads` is the external JSON parser, modelled
as a parameter `parse` returning `none` on `JSONDecodeError`. -/

/-- Observable behaviour of one `generate_content` attempt. -/
inductive GenResponse where
  | exn
  | textErr
  | text (s : List Char)

/-- The retry loop of `_process_area_batch` with `left` attempts remaining
(`max_retries = 3`); each failure path retries while attempts remain and
otherwise contributes no verdicts; a parsed response is filtered to the
folders actually offered in the batch. -/
def process_area_batch_go (parse : List Char → Option (List String))
    (oracle : Nat → GenResponse) (batchFolders : List String) :
    Nat → Nat → List String
  | 0, _ => []
  | left + 1, attempt =>
    match oracle attempt with
    | .exn =>
      if 0 < left then process_area_batch_go parse oracle batchFolders left (attempt + 1)
      else []
    | .textErr =>
      if 0 < left then process_area_batch_go parse oracle batchFolders left (attempt + 1)
      else []
    | .text s =>
      if trimL s = [] then
        (if 0 < left then process_area_batch_go parse oracle batchFolders left (attempt + 1)
         else [])
      else
        match stripFences s with
        | none =>
          if 0 < left then process_area_batch_go parse oracle batchFolders left (attempt + 1)
          else []
        | some cleaned =>
          match parse cleaned with
          | none =>
            if 0 < left then
              process_area_batch_go parse oracle batchFolders left (attempt + 1)
            else []
          | some names => names.filter (fun f => f ∈ batchFolders)

/-- `_process_area_batch(client, prompt, …, batch_folders)`. -/
def process_area_batch (parse : List Char → Option (List String))
    (oracle : Nat → GenResponse) (batchFolders : List String) : List String :=
  process_area_batch_go parse oracle batchFolders 3 0

/-- `find_relevant_areas_from_indexes(diff)`: `none` models the Python
`None` "fall back to full scan" signal returned when no indexes exist;
otherwise folder names are batched (size 5), each batch is evaluated by the
oracle (`oracle i` is the attempt sequence for batch `i`), non-empty batch
verdicts are concatenated and deduplicated preserving first-seen order. -/
def find_relevant_areas_from_indexes (parse : List Char → Option (List String))
    (oracle : Nat → Nat → GenResponse) (indexes : List (String × String)) :
    Option (List String) :=
  if indexes.isEmpty then none
  else
    let allFolders := indexes.map Prod.fst
    let batches := chunkBy 5 allFolders
    let all := batches.enum.foldl
      (fun acc bi =>
        let br := process_area_batch parse (oracle bi.1) bi.2
        if br.isEmpty then acc else acc ++ br) []
    some (dedupFirst all)

/-! ## Relevance Matcher, file-level stage
(`ask_gemini_for_relevant_files`, suggest_docs.py lines 314–394)

File previews are batched in tens; the oracle response for a batch is free
text (`oracle i`; an exception in `generate_content` would propagate, so
only the returning behaviour is modelled).  A `NONE` answer contributes
nothing; otherwise the response's non-blank lines are kept when they end in
a documentation extension — and only that: there is no filtering against
the batch's offered file list. -/

/-- `"NONE"`. -/
def noneAnswer : List Char := ['N', 'O', 'N', 'E']

/-- `validate_docs_file_extension`-style check used at suggest_docs.py line
373: keep only `.adoc`/`.md`/`.rst` names. -/
def isDocExtL (f : List Char) : Bool :=
  endsWithL ['.', 'a', 'd', 'o', 'c'] f || endsWithL ['.', 'm', 'd'] f ||
    endsWithL ['.', 'r', 's', 't'] f

/-- Processing of one file-level batch response (suggest_docs.py lines
366–380): strip; `NONE` (case-insensitive via `.upper()`) contributes
nothing; otherwise split into non-blank stripped lines and keep those with
a documentation extension. -/
def process_file_batch (resp : List Char) : List (List Char) :=
  let t := trimL resp
  if t.map Char.toUpper = noneAnswer then []
  else (((splitOnCharL '\n' t).map trimL).filter (fun l => l ≠ [])).filter isDocExtL

/-- `ask_gemini_for_relevant_files(diff, file_previews)`: batches of 10,
concatenated filtered batch answers, deduplicated first-seen. -/
def ask_gemini_for_relevant_files (oracle : Nat → List Char)
    (filePreviews : List (List Char × List Char)) : List (List Char) :=
  let batches := chunkBy 10 filePreviews
  let all := batches.enum.foldl
    (fun acc bi => acc ++ process_file_batch (oracle bi.1)) []
  dedupFirst all

/-! ### Generic lemmas about the aggregation loops -/

theorem mem_dedupFirstGo {α : Type} [DecidableEq α] {x : α} :
    ∀ (seen l : List α), x ∈ dedupFirstGo seen l → x ∈ l := by
  intro seen l
  induction l generalizing seen with
  | nil => intro hx; exact absurd hx (List.not_mem_nil x)
  | cons y ys ih =>
    intro hx
    unfold dedupFirstGo at hx
    by_cases hy : y ∈ seen
    · rw [if_pos hy] at hx
      exact List.mem_cons_of_mem y (ih seen hx)
    · rw [if_neg hy] at hx
      rcases List.mem_cons.1 hx with rfl | hx'
      · exact List.mem_cons_self x ys
      · exact List.mem_cons_of_mem y (ih (y :: seen) hx')

theorem dedupFirstGo_eq_nil_iff {α : Type} [DecidableEq α] :
    ∀ (seen l : List α), dedupFirstGo seen l = [] ↔ ∀ x ∈ l, x ∈ seen := by
  intro seen l
  induction l generalizing seen with
  | nil => simp [dedupFirstGo]
  | cons y ys ih =>
    unfold dedupFirstGo
    by_cases hy : y ∈ seen
    · rw [if_pos hy, ih seen]
      constructor
      · intro hall x hx
        rcases List.mem_cons.1 hx with rfl | hx'
        · exact hy
        · exact hall x hx'
      · intro hall x hx
        exact hall x (List.mem_cons_of_mem y hx)
    · rw [if_neg hy]
      constructor
      · intro hx
        exact absurd hx (List.cons_ne_nil _ _)
      · intro hall
        exact absurd (hall y (List.mem_cons_self y ys)) hy

theorem dedupFirst_eq_nil_iff {α : Type} [DecidableEq α] (l : List α) :
    dedupFirst l = [] ↔ l = [] := by
  unfold dedupFirst
  rw [dedupFirstGo_eq_nil_iff]
  constructor
  · intro hall
    cases l with
    | nil => rfl
    | cons x xs => exact absurd (hall x (List.mem_cons_self x xs)) (List.not_mem_nil x)
  · rintro rfl
    simp

theorem foldl_filtered_append_eq_nil_iff {α β : Type} (g : β → List α) :
    ∀ (l : List β) (init : List α),
      (l.foldl (fun acc b => if (g b).isEmpty then acc else acc ++ g b) init) = [] ↔
        (init = [] ∧ ∀ b ∈ l, g b = []) := by
  intro l
  induction l with
  | nil => intro init; simp
  | cons b l' ih =>
    intro init
    rw [List.foldl_cons, ih]
    by_cases hb : (g b).isEmpty
    · rw [if_pos hb]
      have hgb : g b = [] := List.isEmpty_iff.1 hb
      constructor
      · rintro ⟨h1, h2⟩
        exact ⟨h1, fun c hc => by
          rcases List.mem_cons.1 hc with rfl | hc'
          · exact hgb
          · exact h2 c hc'⟩
      · rintro ⟨h1, h2⟩
        exact ⟨h1, fun c hc => h2 c (List.mem_cons_of_mem b hc)⟩
    · rw [if_neg hb]
      have hgb : g b ≠ [] := fun hc => hb (by simp [hc])
      constructor
      · rintro ⟨h1, _⟩
        exact absurd (List.append_eq_nil.1 h1).2 hgb
      · rintro ⟨_, h2⟩
        exact absurd (h2 b (List.mem_cons_self b l')) hgb

theorem mem_foldl_append {α β : Type} (g : β → List α) :
    ∀ (l : List β) (init : List α) (x : α),
      x ∈ l.foldl (fun acc b => acc ++ g b) init → x ∈ init ∨ ∃ b ∈ l, x ∈ g b := by
  intro l
  induction l with
  | nil => intro init x hx; exact Or.inl hx
  | cons b l' ih =>
    intro init x hx
    rw [List.foldl_cons] at hx
    rcases ih (init ++ g b) x hx with hinit | ⟨c, hc, hxc⟩
    · rcases List.mem_append.1 hinit with h1 | h2
      · exact Or.inl h1
      · exact Or.inr ⟨b, List.mem_cons_self b l', h2⟩
    · exact Or.inr ⟨c, List.mem_cons_of_mem b hc, hxc⟩

/-- C6: with no built indexes the area-level matcher returns the
distinguished fall-back signal (`none`, distinct from `some []`); and the
empty verdict list is returned exactly when indexes exist and every batch
contributed no verdicts. -/
theorem C6_empty_indexes_fallback (parse : List Char → Option (List String))
    (oracle : Nat → Nat → GenResponse) (indexes : List (String × String)) :
    (indexes = [] → find_relevant_areas_from_indexes parse oracle indexes = none)
    ∧ (find_relevant_areas_from_indexes parse oracle indexes = some [] ↔
        (indexes ≠ [] ∧ ∀ bi ∈ (chunkBy 5 (indexes.map Prod.fst)).enum,
          process_area_batch parse (oracle bi.1) bi.2 = [])) := by
  constructor
  · rintro rfl
    simp [find_relevant_areas_from_indexes]
  · unfold find_relevant_areas_from_indexes
    by_cases hnil : indexes.isEmpty
    · rw [if_pos hnil]
      simp only [List.isEmpty_iff] at hnil
      simp [hnil]
    · rw [if_neg hnil]
      simp only [List.isEmpty_iff] at hnil
      simp only [Option.some.injEq]
      rw [dedupFirst_eq_nil_iff,
        foldl_filtered_append_eq_nil_iff
          (fun (bi : Nat × List String) => process_area_batch parse (oracle bi.1) bi.2)]
      constructor
      · rintro ⟨_, h2⟩
        exact ⟨hnil, h2⟩
      · rintro ⟨_, h2⟩
        exact ⟨rfl, h2⟩

/-- Witness for C6 at the empty index set: the matcher yields the fall-back
signal `none`. -/
theorem C6_empty_indexes_fallback_witness :
    find_relevant_areas_from_indexes (fun _ => none) (fun _ _ => .exn) [] = none :=
  (C6_empty_indexes_fallback (fun _ => none) (fun _ _ => .exn) []).1 rfl

/-- C2 counterexample: in the file-level stage the oracle answers with a
file name that was never offered in the batch (`other.md`, while the batch
offered only `a.md`); the code keeps it, because suggest_docs.py lines
372–373 only filter by documentation extension, never by membership in the
batch.  So the claim's file-level containment fails. -/
theorem C2_counterexample :
    ask_gemini_for_relevant_files (fun _ => "other.md".toList)
      [("a.md".toList, "preview".toList)] = ["other.md".toList]
    ∧ "other.md".toList ∉ ["a.md".toList] := by
  decide

/-- C2 (amended): the area-level stage does satisfy verdict containment —
every name returned by `_process_area_batch` is a member of the batch's
folder list; the file-level stage instead only guarantees that every
returned path ends in a documentation extension (`.adoc`/`.md`/`.rst`), and
may return paths outside the offered batch. -/
theorem C2_area_containment_file_extension_only :
    (∀ (parse : List Char → Option (List String)) (oracle : Nat → GenResponse)
      (batchFolders : List String) (x : String),
      x ∈ process_area_batch parse oracle batchFolders → x ∈ batchFolders)
    ∧ (∀ (oracle : Nat → List Char) (previews : List (List Char × List Char))
        (f : List Char),
        f ∈ ask_gemini_for_relevant_files oracle previews → isDocExtL f = true) := by
  constructor
  · intro parse oracle batchFolders x hx
    unfold process_area_batch at hx
    generalize hstart : 0 = attempt at hx
    clear hstart
    generalize hleft : 3 = left at hx
    clear hleft
    induction left generalizing attempt with
    | zero => exact absurd hx (List.not_mem_nil x)
    | succ left ih =>
      unfold process_area_batch_go at hx
      revert hx
      cases oracle attempt with
      | exn =>
        dsimp only
        intro hx
        split at hx
        · exact ih _ hx
        · exact absurd hx (List.not_mem_nil x)
      | textErr =>
        dsimp only
        intro hx
        split at hx
        · exact ih _ hx
        · exact absurd hx (List.not_mem_nil x)
      | text s =>
        dsimp only
        intro hx
        split at hx
        · split at hx
          · exact ih _ hx
          · exact absurd hx (List.not_mem_nil x)
        · revert hx
          cases stripFences s with
          | none =>
            dsimp only
            intro hx
            split at hx
            · exact ih _ hx
            · exact absurd hx (List.not_mem_nil x)
          | some cleaned =>
            dsimp only
            cases parse cleaned with
            | none =>
              dsimp only
              intro hx
              split at hx
              · exact ih _ hx
              · exact absurd hx (List.not_mem_nil x)
            | some names =>
              dsimp only
              intro hx
              exact of_decide_eq_true (List.of_mem_filter (p := fun f => decide (f ∈ batchFolders)) hx)
  · intro oracle previews f hf
    unfold ask_gemini_for_relevant_files at hf
    have hf' := mem_dedupFirstGo _ _ hf
    rcases mem_foldl_append (fun (bi : Nat × List (List Char × List Char)) =>
        process_file_batch (oracle bi.1)) _ _ _ hf' with hinit | ⟨bi, _, hfb⟩
    · exact absurd hinit (List.not_mem_nil f)
    · unfold process_file_batch at hfb
      by_cases hn : (trimL (oracle bi.1)).map Char.toUpper = noneAnswer
      · rw [if_pos hn] at hfb
        exact absurd hfb (List.not_mem_nil f)
      · rw [if_neg hn] at hfb
        exact List.of_mem_filter hfb

/-- Witness for the amended C2: the area stage keeps only offered folders
("b" is hallucinated away), and a concrete file-stage answer passes the
extension filter. -/
theorem C2_area_containment_file_extension_only_witness :
    "a" ∈ ["a"] ∧ isDocExtL "other.md".toList = true := by
  constructor
  · exact C2_area_containment_file_extension_only.1 (fun _ => some ["a", "b"])
      (fun _ => .text "x".toList) ["a"] "a" (by decide)
  · exact C2_area_containment_file_extension_only.2 (fun _ => "other.md".toList)
      [("a.md".toList, "preview".toList)] "other.md".toList (by decide)

/-! ## Summary Cache Store
(doc_index.py lines 1032–1177) -/

/-- One entry of the summaries manifest: digest of the source file at
summarization time, generation timestamp, and the summary artifact's file
name (`info.get("summary_file")`, possibly absent). -/
structure SummaryEntry where
  hash : String
  generated : String
  summary_file : Option String
deriving DecidableEq

/-- The summaries manifest (`summaries_manifest.json`). -/
structure SummariesManifest where
  version : String
  files : List (String × SummaryEntry)
deriving DecidableEq

/-- On-disk state of a JSON file: absent, present-but-unparsable, or parsed.
`json.load`/`json.loads` is the external parser; its outcome is the input. -/
inductive OnDisk (α : Type) where
  | absent
  | corrupt
  | parsed (value : α)

/-- `load_manifest()` (doc_index.py lines 141–159): a missing file yields a
fresh empty manifest, a present file is handed to `json.load` with NO
exception handler — a parse error propagates (modelled as `.error`). -/
def load_manifest (onDisk : OnDisk Manifest) : Except String Manifest :=
  match onDisk with
  | .absent => .ok ⟨"1.0", []⟩
  | .corrupt => .error "json.decoder.JSONDecodeError"
  | .parsed m => .ok m

/-- `load_summaries_manifest()` (doc_index.py lines 1032–1046): a missing
file yields a fresh empty manifest and — unlike `load_manifest` — a
`json.JSONDecodeError` is caught and also yields a fresh empty manifest. -/
def load_summaries_manifest (onDisk : OnDisk SummariesManifest) : SummariesManifest :=
  match onDisk with
  | .absent => ⟨"1.0", []⟩
  | .corrupt => ⟨"1.0", []⟩
  | .parsed m => m

/-- C7 counterexample: a corrupted folder-index manifest is NOT treated as
an empty manifest — `load_manifest` has no exception handler around
`json.load`, so the parse error propagates (fatal to `build_all_indexes`),
contradicting the claim that corruption is never fatal for both manifests. -/
theorem C7_counterexample :
    load_manifest (.corrupt) = .error "json.decoder.JSONDecodeError"
    ∧ load_manifest (.corrupt) ≠ .ok ⟨"1.0", []⟩ := by
  exact ⟨rfl, by simp [load_manifest]⟩

/-- C7 (amended): a corrupted summaries manifest is treated as an empty
manifest and loading never fails; the folder-index manifest, in contrast,
yields an empty manifest only when the file is absent — a corrupted file
makes `load_manifest` raise the parse error. -/
theorem C7_corrupt_manifest_behaviour :
    (load_summaries_manifest (.corrupt) = ⟨"1.0", []⟩
      ∧ load_summaries_manifest (.absent) = ⟨"1.0", []⟩
      ∧ ∀ d : OnDisk SummariesManifest, ∃ m, load_summaries_manifest d = m)
    ∧ (load_manifest (.absent) = .ok ⟨"1.0", []⟩
      ∧ load_manifest (.corrupt) = .error "json.decoder.JSONDecodeError") := by
  exact ⟨⟨rfl, rfl, fun d => ⟨load_summaries_manifest d, rfl⟩⟩, rfl, rfl⟩

/-- `load_cached_summary(file_path)` (doc_index.py lines 1068–1110): `None`
without a manifest entry; `None` when the file's current digest differs
from the stored one; otherwise the summary artifact's content when the
artifact file exists (`summaryFile` models its on-disk presence/content). -/
def load_cached_summary (h : String → String) (manifest : SummariesManifest)
    (filePath : String) (content : String) (summaryFile : Option String) :
    Option String :=
  match alookup filePath manifest.files with
  | none => none
  | some entry =>
    if h content ≠ entry.hash then none
    else summaryFile

/-- `get_or_generate_summary(file_path, content, generate_func)`
(doc_index.py lines 1152–1177): Python `if cached:` — the cached text is
returned only when it is non-empty (truthy); otherwise the generator runs.
The second component records whether `generate_func` was invoked (the
`save_summary` persistence of a fresh summary is not modelled here). -/
def get_or_generate_summary (h : String → String) (manifest : SummariesManifest)
    (filePath : String) (content : String) (summaryFile : Option String)
    (generateFn : String → String → String) : String × Bool :=
  match load_cached_summary h manifest filePath content summaryFile with
  | some cached =>
    if cached ≠ "" then (cached, false)
    else (generateFn filePath content, true)
  | none => (generateFn filePath content, true)

/-- C4 counterexample: the file's digest matches the stored one and the
cached artifact exists but is empty; Python's truthiness test `if cached:`
treats it as a miss, so the generator IS invoked, refuting "never invokes
the supplied generator". -/
theorem C4_counterexample :
    get_or_generate_summary id ⟨"1.0", [("doc.md", ⟨"body", "t0", some "doc.md.summary.md"⟩)]⟩
      "doc.md" "body" (some "") (fun _ _ => "generated") = ("generated", true) := by
  decide

/-- C4 (amended): when the file's current digest equals the stored digest
and the cached summary artifact exists with NON-EMPTY content,
`get_or_generate_summary` returns the cached artifact and does not invoke
the generator. -/
theorem C4_cache_hit_skips_generator (h : String → String)
    (manifest : SummariesManifest) (filePath content : String)
    (entry : SummaryEntry) (cachedText : String)
    (generateFn : String → String → String)
    (hentry : alookup filePath manifest.files = some entry)
    (hhash : h content = entry.hash)
    (hne : cachedText ≠ "") :
    get_or_generate_summary h manifest filePath content (some cachedText) generateFn =
      (cachedText, false) := by
  unfold get_or_generate_summary load_cached_summary
  rw [hentry]
  simp [hhash, hne]

/-- Witness for the amended C4: a matching digest plus a non-empty cached
artifact yields the cached text with the generator not invoked. -/
theorem C4_cache_hit_skips_generator_witness :
    get_or_generate_summary id
      ⟨"1.0", [("doc.md", ⟨"body", "t0", some "doc.md.summary.md"⟩)]⟩
      "doc.md" "body" (some "cached summary") (fun _ _ => "generated") =
      ("cached summary", false) :=
  C4_cache_hit_skips_generator id
    ⟨"1.0", [("doc.md", ⟨"body", "t0", some "doc.md.summary.md"⟩)]⟩
    "doc.md" "body" ⟨"body", "t0", some "doc.md.summary.md"⟩ "cached summary"
    (fun _ _ => "generated") (by decide) rfl (by decide)

/-! ## Cache Publisher
(`commit_indexes_to_repo` / `doc_matches_main` / `get_safe_summaries_to_push`,
doc_index.py lines 474–701 and 1193–1274)

The git subprocess layer is external: its observable answers (porcelain
status output, merge-base and rev-parse stdout with `none` for a nonzero
return code, per-file contents at `origin/main`) are inputs.  The decision
core — what gets staged for publication — is modelled; the actual
commit/push plumbing after staging is not part of the claims. -/

/-- What `commit_indexes_to_repo` stages before committing. -/
inductive StageDecision where
  | noPublish
  | fullAdd
  | selectiveAdd (files : List String)
deriving DecidableEq

/-- `content_type` argument of `commit_indexes_to_repo`. -/
inductive ContentType where
  | indexes
  | summaries
deriving DecidableEq

/-- Per-document comparison environment for `doc_matches_main`:
the local file's bytes (if it exists) and `git show origin/main:path`
output (`none` when the command fails, i.e. the file is absent on main). -/
structure DocEnv where
  localContent : Option String
  mainContent : Option String

/-- `doc_matches_main(doc_file_path)` (doc_index.py lines 1193–1242):
`False` when the local file is missing; `True` when `git show` fails
("new files are safe to push"); otherwise equality of the SHA-256 digests
of the local bytes and the shared-branch bytes. -/
def doc_matches_main (h : String → String) (env : DocEnv) : Bool :=
  match env.localContent with
  | none => false
  | some lc =>
    match env.mainContent with
    | none => true
    | some mc => h lc = h mc

/-- `get_safe_summaries_to_push(base_branch)` (doc_index.py lines
1245–1274): the loop over manifest entries is written as a `filterMap` —
entries without a `summary_file` are skipped, and a summary file name is
kept when its source doc matches main and the artifact exists on disk. -/
def get_safe_summaries_to_push (h : String → String) (manifest : SummariesManifest)
    (envs : String → DocEnv) (summaryOnDisk : String → Bool) : List String :=
  manifest.files.filterMap (fun pe =>
    match pe.2.summary_file with
    | none => none
    | some sf =>
      if doc_matches_main h (envs pe.1) then
        if summaryOnDisk sf then some sf else none
      else none)

/-- The staging decision of `commit_indexes_to_repo` (doc_index.py lines
486–597): no index directory or no porcelain changes → nothing; branch up
to date (merge-base stdout equals rev-parse stdout, defaulting to True if
either command failed) → stage the full index directory; diverged →
indexes are refused outright, summaries stage only the safe list plus the
summaries manifest; an empty post-add staging area also aborts. -/
def commit_indexes_to_repo_decision (contentType : ContentType)
    (indexDirExists : Bool) (statusOut : List Char)
    (mergeBase mainHead : Option (List Char)) (safeSummaries : List String)
    (manifestPath : String) (stagedOut : List Char) : StageDecision :=
  if !indexDirExists then .noPublish
  else if trimL statusOut = [] then .noPublish
  else
    let branchUpToDate : Bool :=
      match mergeBase, mainHead with
      | some mb, some mh => trimL mb == trimL mh
      | _, _ => true
    if branchUpToDate then
      (if trimL stagedOut = [] then .noPublish else .fullAdd)
    else
      match contentType with
      | .indexes => .noPublish
      | .summaries =>
        if safeSummaries.isEmpty then .noPublish
        else if trimL stagedOut = [] then .noPublish
        else .selectiveAdd (safeSummaries ++ [manifestPath])

/-- C3 counterexample: the branch has diverged and the summary's source doc
does NOT exist on the shared branch (`git show` fails), so it is not
byte-identical to any shared-branch content — yet `doc_matches_main`
answers `True` ("new files are safe to push") and the summary IS staged,
refuting the claim's "if and only if the source document is
byte-identical". -/
theorem C3_counterexample :
    doc_matches_main id ⟨some "new doc body", none⟩ = true
    ∧ (⟨some "new doc body", none⟩ : DocEnv).mainContent = none
    ∧ commit_indexes_to_repo_decision .summaries true ['M'] (some ['a']) (some ['b'])
        (get_safe_summaries_to_push id
          ⟨"1.0", [("new.md", ⟨"h1", "t0", some "new.md.summary.md"⟩)]⟩
          (fun _ => ⟨some "new doc body", none⟩) (fun _ => true))
        ".doc-index/summaries_manifest.json" ['S'] =
      .selectiveAdd ["new.md.summary.md", ".doc-index/summaries_manifest.json"] := by
  decide

theorem doc_matches_main_iff (h : String → String) (hInj : Function.Injective h)
    (env : DocEnv) :
    doc_matches_main h env = true ↔
      ∃ lc, env.localContent = some lc ∧
        (env.mainContent = none ∨ env.mainContent = some lc) := by
  unfold doc_matches_main
  cases hl : env.localContent with
  | none => simp
  | some lc =>
    cases hm : env.mainContent with
    | none => simp
    | some mc =>
      simp only [decide_eq_true_eq, Option.some.injEq]
      constructor
      · intro he
        exact ⟨lc, rfl, Or.inr (hInj he).symm⟩
      · rintro ⟨lc', rfl, hor⟩
        rcases hor with hc | hc
        · exact absurd hc (by simp)
        · rw [hc]

/-- C3 (amended): with the merge-base equal to the shared tip the full
local cache state is staged; under divergence index publication is refused
for every input; under divergence summaries stage exactly the safe list
plus the summaries manifest (nothing when the safe list is empty); and a
summary is in the safe list iff its manifest entry names it, the artifact
exists, and the source doc exists locally and is byte-identical to the
shared branch copy OR absent from the shared branch (new file). -/
theorem C3_publish_safety (h : String → String) (hInj : Function.Injective h) :
    (∀ (ct : ContentType) (statusOut stagedOut mb mh : List Char)
      (safe : List String) (mp : String),
      trimL statusOut ≠ [] → trimL stagedOut ≠ [] → trimL mb = trimL mh →
      commit_indexes_to_repo_decision ct true statusOut (some mb) (some mh) safe mp
        stagedOut = .fullAdd)
    ∧ (∀ (dirExists : Bool) (statusOut stagedOut mb mh : List Char)
        (safe : List String) (mp : String),
        trimL mb ≠ trimL mh →
        commit_indexes_to_repo_decision .indexes dirExists statusOut (some mb) (some mh)
          safe mp stagedOut = .noPublish)
    ∧ (∀ (statusOut stagedOut mb mh : List Char) (manifest : SummariesManifest)
        (envs : String → DocEnv) (onDisk : String → Bool) (mp : String),
        trimL statusOut ≠ [] → trimL stagedOut ≠ [] → trimL mb ≠ trimL mh →
        (get_safe_summaries_to_push h manifest envs onDisk ≠ [] →
          commit_indexes_to_repo_decision .summaries true statusOut (some mb) (some mh)
            (get_safe_summaries_to_push h manifest envs onDisk) mp stagedOut =
            .selectiveAdd (get_safe_summaries_to_push h manifest envs onDisk ++ [mp]))
        ∧ (get_safe_summaries_to_push h manifest envs onDisk = [] →
          commit_indexes_to_repo_decision .summaries true statusOut (some mb) (some mh)
            (get_safe_summaries_to_push h manifest envs onDisk) mp stagedOut = .noPublish))
    ∧ (∀ (manifest : SummariesManifest) (envs : String → DocEnv)
        (onDisk : String → Bool) (sf : String),
        sf ∈ get_safe_summaries_to_push h manifest envs onDisk ↔
          ∃ docPath e, (docPath, e) ∈ manifest.files ∧ e.summary_file = some sf ∧
            onDisk sf = true ∧
            ∃ lc, (envs docPath).localContent = some lc ∧
              ((envs docPath).mainContent = none ∨
                (envs docPath).mainContent = some lc)) := by
  refine ⟨?_, ?_, ?_, ?_⟩
  · intro ct statusOut stagedOut mb mh safe mp hst hsg heq
    simp [commit_indexes_to_repo_decision, hst, hsg, heq]
  · intro dirExists statusOut stagedOut mb mh safe mp hne
    unfold commit_indexes_to_repo_decision
    cases dirExists with
    | false => simp
    | true =>
      by_cases hst : trimL statusOut = []
      · simp [hst]
      · simp [hst, hne]
  · intro statusOut stagedOut mb mh manifest envs onDisk mp hst hsg hne
    constructor
    · intro hsafe
      simp [commit_indexes_to_repo_decision, hst, hsg, hne, hsafe]
    · intro hsafe
      simp [commit_indexes_to_repo_decision, hst, hsg, hne, hsafe]
  · intro manifest envs onDisk sf
    unfold get_safe_summaries_to_push
    rw [List.mem_filterMap]
    constructor
    · rintro ⟨pe, hpe, hval⟩
      revert hval
      cases hsf : pe.2.summary_file with
      | none => intro hval; exact absurd hval (by simp)
      | some sf' =>
        dsimp only
        by_cases hdm : doc_matches_main h (envs pe.1) = true
        · rw [if_pos hdm]
          by_cases hod : onDisk sf' = true
          · rw [if_pos hod]
            intro hval
            obtain rfl : sf' = sf := Option.some.inj hval
            obtain ⟨lc, hlc, hmc⟩ := (doc_matches_main_iff h hInj (envs pe.1)).1 hdm
            exact ⟨pe.1, pe.2, hpe, hsf, hod, lc, hlc, hmc⟩
          · rw [if_neg (by simpa using hod)]
            intro hval
            exact absurd hval (by simp)
        · rw [if_neg (by simpa using hdm)]
          intro hval
          exact absurd hval (by simp)
    · rintro ⟨docPath, e, hpe, hsf, hod, lc, hlc, hmc⟩
      refine ⟨(docPath, e), hpe, ?_⟩
      have hdm : doc_matches_main h (envs docPath) = true :=
        (doc_matches_main_iff h hInj (envs docPath)).2 ⟨lc, hlc, hmc⟩
      simp [hsf, hdm, hod]

/-- Witness for the amended C3 at concrete inputs: diverged branch refuses
index publication, and an up-to-date branch stages the full cache. -/
theorem C3_publish_safety_witness :
    commit_indexes_to_repo_decision .indexes true ['M'] (some ['a']) (some ['b'])
      [] ".doc-index/summaries_manifest.json" ['S'] = .noPublish
    ∧ commit_indexes_to_repo_decision .summaries true ['M'] (some ['a']) (some ['a'])
      [] ".doc-index/summaries_manifest.json" ['S'] = .fullAdd := by
  constructor
  · exact (C3_publish_safety id (fun _ _ he => he)).2.1 true ['M'] ['S'] ['a'] ['b']
      [] ".doc-index/summaries_manifest.json" (by decide)
  · exact (C3_publish_safety id (fun _ _ he => he)).1 .summaries ['M'] ['S'] ['a'] ['a']
      [] ".doc-index/summaries_manifest.json" (by decide) (by decide) rfl

/-! ## Credential scrubbing
(`sanitize_output` / `run_command_safe`, security_utils.py lines 15–92)

Python `str.replace(old, new)` — leftmost, non-overlapping replacement of
every occurrence — is modelled on `List Char` by a structurally recursive
state machine `repGo` (the `Nat` counter skips the remainder of a matched
occurrence), so that concrete runs evaluate by `decide`. -/

/-- One `str.replace(a :: t', mask)` pass over the text.  In state `n + 1`
the machine is inside a matched occurrence and drops the character; in
state `0` it tests for a match at the current position, emitting `mask` and
entering the skip state on success. -/
def repGo (a : Char) (t' mask : List Char) : Nat → List Char → List Char
  | _, [] => []
  | 0, c :: rest =>
    if leadsWith (a :: t') (c :: rest) then mask ++ repGo a t' mask t'.length rest
    else c :: repGo a t' mask 0 rest
  | n + 1, _ :: rest => repGo a t' mask n rest

/-- Python `text.replace(t, mask)` for a non-empty pattern `t` (the callers
guard `if token and len(token) > 0`, so the empty pattern never reaches the
replacement; it is mapped to the identity). -/
def replaceAllL (t mask s : List Char) : List Char :=
  match t with
  | [] => s
  | a :: t' => repGo a t' mask 0 s

theorem repGo_skip (a : Char) (t' mask : List Char) :
    ∀ (s : List Char) (n : Nat), repGo a t' mask n s = repGo a t' mask 0 (s.drop n) := by
  intro s
  induction s with
  | nil => intro n; cases n <;> rfl
  | cons c rest ih =>
    intro n
    cases n with
    | zero => rfl
    | succ n => simpa [repGo] using ih n

theorem repGo_zero_cons (a : Char) (t' mask : List Char) (c : Char) (rest : List Char) :
    repGo a t' mask 0 (c :: rest) =
      if leadsWith (a :: t') (c :: rest) then
        mask ++ repGo a t' mask 0 (rest.drop t'.length)
      else c :: repGo a t' mask 0 rest := by
  rw [repGo, repGo_skip]

theorem leadsWith_iff (t : List Char) :
    ∀ s, leadsWith t s = true ↔ ∃ v, s = t ++ v := by
  induction t with
  | nil => intro s; simp [leadsWith]
  | cons a t ih =>
    intro s
    cases s with
    | nil =>
      simp only [leadsWith]
      constructor
      · intro hf; exact absurd hf (by simp)
      · rintro ⟨v, hv⟩; exact absurd hv (by simp)
    | cons b s' =>
      simp only [leadsWith, Bool.and_eq_true, decide_eq_true_eq, ih]
      constructor
      · rintro ⟨rfl, v, rfl⟩
        exact ⟨v, rfl⟩
      · rintro ⟨v, hv⟩
        obtain ⟨h1, h2⟩ := List.cons.inj hv
        exact ⟨h1.symm, v, h2⟩

/-! ### Occurrence as a contiguous substring -/

/-- `t` occurs as a contiguous run inside `s`. -/
def occursIn (t s : List Char) : Prop := ∃ u v, s = u ++ t ++ v

theorem occursIn_nil_pattern (s : List Char) : occursIn [] s := ⟨[], s, rfl⟩

theorem not_occursIn_nil {t : List Char} (ht : t ≠ []) : ¬ occursIn t [] := by
  rintro ⟨u, v, huv⟩
  have := List.append_eq_nil.1 huv.symm
  have := List.append_eq_nil.1 this.1
  exact ht this.2

theorem occursIn_cons_elim {t : List Char} {c : Char} {s : List Char}
    (h : occursIn t (c :: s)) : (∃ v, c :: s = t ++ v) ∨ occursIn t s := by
  obtain ⟨u, v, huv⟩ := h
  cases u with
  | nil => exact Or.inl ⟨v, by simpa using huv⟩
  | cons c' u' =>
    obtain ⟨h1, h2⟩ := List.cons.inj (by simpa using huv)
    exact Or.inr ⟨u', v, by rw [h2, List.append_assoc]⟩

theorem occursIn_cons_of {t : List Char} (c : Char) {s : List Char}
    (h : occursIn t s) : occursIn t (c :: s) := by
  obtain ⟨u, v, rfl⟩ := h
  exact ⟨c :: u, v, rfl⟩

theorem occursIn_of_drop {t : List Char} {s : List Char} (n : Nat)
    (h : occursIn t (s.drop n)) : occursIn t s := by
  obtain ⟨u, v, hc⟩ := h
  refine ⟨s.take n ++ u, v, ?_⟩
  conv_lhs => rw [← List.take_append_drop n s]
  rw [hc]
  simp

theorem occursIn_append_cases {t a b : List Char} (h : occursIn t (a ++ b)) :
    occursIn t a ∨ occursIn t b ∨
      ∃ t1 t2, t = t1 ++ t2 ∧ t1 ≠ [] ∧ t2 ≠ [] ∧
        (∃ u, a = u ++ t1) ∧ (∃ v, b = t2 ++ v) := by
  obtain ⟨u, v, huv⟩ := h
  rw [List.append_assoc] at huv
  rcases List.append_eq_append_iff.1 huv.symm with ⟨w, hw1, hw2⟩ | ⟨w, hw1, hw2⟩
  · -- hw1 : a = u ++ w, hw2 : t ++ v = w ++ b
    rcases List.append_eq_append_iff.1 hw2 with ⟨x, hx1, hx2⟩ | ⟨x, hx1, hx2⟩
    · -- hx1 : w = t ++ x, hx2 : v = x ++ b
      refine Or.inl ⟨u, x, ?_⟩
      rw [hw1, hx1]
      simp
    · -- hx1 : t = w ++ x, hx2 : b = x ++ v
      cases hwc : w with
      | nil =>
        refine Or.inr (Or.inl ⟨[], v, ?_⟩)
        rw [hx2, hx1, hwc]
        simp
      | cons w0 w' =>
        cases hxc : x with
        | nil =>
          refine Or.inl ⟨u, [], ?_⟩
          rw [hw1, hx1, hxc]
          simp
        | cons x0 x' =>
          exact Or.inr (Or.inr ⟨w, x, hx1, by rw [hwc]; simp, by rw [hxc]; simp,
            ⟨u, hw1⟩, ⟨v, hx2⟩⟩)
  · -- hw1 : u = a ++ w, hw2 : b = w ++ (t ++ v)
    exact Or.inr (Or.inl ⟨w, v, by rw [hw2, List.append_assoc]⟩)

theorem head_mem_of_occursIn {c : Char} {t' s : List Char}
    (h : occursIn (c :: t') s) : c ∈ s := by
  obtain ⟨u, v, rfl⟩ := h
  simp

/-- Executable occurrence test (`pattern in text`): does `t` occur as a
contiguous run inside `s`? -/
def containsSeg (t : List Char) : List Char → Bool
  | [] => t.isEmpty
  | c :: rest => leadsWith t (c :: rest) || containsSeg t rest

theorem containsSeg_iff (t : List Char) :
    ∀ s, containsSeg t s = true ↔ occursIn t s := by
  intro s
  induction s with
  | nil =>
    simp only [containsSeg, List.isEmpty_iff]
    constructor
    · rintro rfl
      exact occursIn_nil_pattern []
    · intro h
      by_contra ht
      exact not_occursIn_nil ht h
  | cons c rest ih =>
    simp only [containsSeg, Bool.or_eq_true, ih, leadsWith_iff]
    constructor
    · rintro (⟨v, hv⟩ | h)
      · exact ⟨[], v, by simpa using hv⟩
      · exact occursIn_cons_of c h
    · intro h
      rcases occursIn_cons_elim h with h1 | h2
      · exact Or.inl h1
      · exact Or.inr h2

theorem not_occursIn_of_containsSeg_eq_false {t s : List Char}
    (h : containsSeg t s = false) : ¬ occursIn t s := by
  intro hc
  rw [(containsSeg_iff t s).2 hc] at h
  exact absurd h (by simp)

/-- The replacement mask `"***TOKEN***"`. -/
def maskChars : List Char := ['*', '*', '*', 'T', 'O', 'K', 'E', 'N', '*', '*', '*']

/-- The letters of the mask between the stars. -/
def tokenChars : List Char := ['T', 'O', 'K', 'E', 'N']

theorem maskChars_decomp :
    maskChars = ['*', '*', '*'] ++ (tokenChars ++ ['*', '*', '*']) := by
  decide

theorem star_mem_of_occursIn_star3 {t : List Char} (ht : t ≠ [])
    (h : occursIn t ['*', '*', '*']) : '*' ∈ t := by
  cases t with
  | nil => exact absurd rfl ht
  | cons c t'' =>
    have hc := head_mem_of_occursIn h
    have hcs : c = '*' := by simpa using hc
    subst hcs
    exact List.mem_cons_self _ _

theorem star_mem_of_star3_pfx {t2 : List Char} (ht2 : t2 ≠ [])
    (h : ∃ v, ['*', '*', '*'] = t2 ++ v) : '*' ∈ t2 := by
  obtain ⟨v, hv⟩ := h
  cases t2 with
  | nil => exact absurd rfl ht2
  | cons c t2' =>
    obtain ⟨h1, _⟩ := List.cons.inj (by simpa using hv)
    rw [← h1]
    exact List.mem_cons_self _ _

theorem star_mem_of_mask_sfx {t1 : List Char} (ht1 : t1 ≠ [])
    (h : ∃ u, maskChars = u ++ t1) : '*' ∈ t1 := by
  obtain ⟨u, hu⟩ := h
  have hr : maskChars.reverse = t1.reverse ++ u.reverse := by
    rw [hu, List.reverse_append]
  cases hc : t1.reverse with
  | nil => exact absurd (by simpa using congrArg List.reverse hc) ht1
  | cons c tr =>
    rw [hc] at hr
    have hmr : maskChars.reverse =
        '*' :: ['*', '*', 'N', 'E', 'K', 'O', 'T', '*', '*', '*'] := by decide
    rw [hmr] at hr
    obtain ⟨h1, _⟩ := List.cons.inj hr
    have : c ∈ t1.reverse := by rw [hc]; exact List.mem_cons_self _ _
    rw [← h1] at this
    exact List.mem_reverse.1 this

/-- An occurrence inside the mask `***TOKEN***` either contains a star or
lies entirely within the `TOKEN` letters: any window touching the mask that
avoids `*` is a substring of `TOKEN`. -/
theorem occursIn_maskChars_cases {t : List Char} (ht : t ≠ [])
    (h : occursIn t maskChars) : '*' ∈ t ∨ occursIn t tokenChars := by
  rw [maskChars_decomp] at h
  rcases occursIn_append_cases h with h1 | h1 | ⟨t1, t2, hteq, ht1, ht2, ⟨u, hu⟩, _⟩
  · exact Or.inl (star_mem_of_occursIn_star3 ht h1)
  · rcases occursIn_append_cases h1 with h2 | h2 | ⟨t1, t2, hteq, ht1, ht2, _, ⟨v, hv⟩⟩
    · exact Or.inr h2
    · exact Or.inl (star_mem_of_occursIn_star3 ht h2)
    · have hst := star_mem_of_star3_pfx ht2 ⟨v, hv⟩
      exact Or.inl (by rw [hteq]; exact List.mem_append.2 (Or.inr hst))
  · cases t1 with
    | nil => exact absurd rfl ht1
    | cons c t1' =>
      have hcmem : c ∈ ['*', '*', '*'] := by rw [hu]; simp
      have hcs : c = '*' := by simpa using hcmem
      subst hcs
      exact Or.inl (by rw [hteq]; simp)

/-- A leading segment of one replacement pass's output that contains no
star is a leading segment of the input (the mask starts with `*`). -/
theorem leadSeg_replace (a : Char) (t' : List Char) :
    ∀ (n : Nat) (s p : List Char), s.length ≤ n → '*' ∉ p →
      (∃ v, repGo a t' maskChars 0 s = p ++ v) → ∃ v, s = p ++ v := by
  intro n
  induction n with
  | zero =>
    intro s p hlen hp hex
    have hs : s = [] := List.length_eq_zero.1 (Nat.le_zero.1 hlen)
    subst hs
    obtain ⟨v, hv⟩ := hex
    have hpn : p = [] := (List.append_eq_nil.1 hv.symm).1
    exact ⟨[], by subst hpn; rfl⟩
  | succ n ih =>
    intro s p hlen hp hex
    cases s with
    | nil =>
      obtain ⟨v, hv⟩ := hex
      have hpn : p = [] := (List.append_eq_nil.1 hv.symm).1
      exact ⟨[], by subst hpn; rfl⟩
    | cons c rest =>
      have hlen' : rest.length ≤ n := by
        simp only [List.length_cons] at hlen
        omega
      rw [repGo_zero_cons] at hex
      by_cases hlw : leadsWith (a :: t') (c :: rest) = true
      · rw [if_pos hlw] at hex
        obtain ⟨v, hv⟩ := hex
        cases p with
        | nil => exact ⟨c :: rest, rfl⟩
        | cons p0 p' =>
          have hmc : maskChars =
              '*' :: ['*', '*', 'T', 'O', 'K', 'E', 'N', '*', '*', '*'] := rfl
          rw [hmc] at hv
          obtain ⟨h1, _⟩ := List.cons.inj (by simpa using hv)
          have hmem : '*' ∈ p0 :: p' := by
            rw [h1]
            exact List.mem_cons_self _ _
          exact absurd hmem hp
      · rw [if_neg hlw] at hex
        obtain ⟨v, hv⟩ := hex
        cases p with
        | nil => exact ⟨c :: rest, rfl⟩
        | cons p0 p' =>
          obtain ⟨h1, h2⟩ := List.cons.inj (by simpa using hv)
          obtain ⟨v', hv'⟩ := ih rest p' hlen'
            (fun hx => hp (List.mem_cons_of_mem p0 hx)) ⟨v, h2⟩
          exact ⟨v', by rw [h1, hv']; rfl⟩

/-- One replacement pass for pattern `t` (with no star in `t` and `t` not a
substring of `TOKEN`) leaves no occurrence of `t` in its output. -/
theorem not_occursIn_repGo_self (a : Char) (t' : List Char)
    (hstar : '*' ∉ a :: t') (htok : ¬ occursIn (a :: t') tokenChars) :
    ∀ (n : Nat) (s : List Char), s.length ≤ n →
      ¬ occursIn (a :: t') (repGo a t' maskChars 0 s) := by
  intro n
  induction n with
  | zero =>
    intro s hlen hocc
    have hs : s = [] := List.length_eq_zero.1 (Nat.le_zero.1 hlen)
    subst hs
    exact not_occursIn_nil (by simp) hocc
  | succ n ih =>
    intro s hlen hocc
    cases s with
    | nil => exact not_occursIn_nil (by simp) hocc
    | cons c rest =>
      have hlen' : rest.length ≤ n := by
        simp only [List.length_cons] at hlen
        omega
      rw [repGo_zero_cons] at hocc
      by_cases hlw : leadsWith (a :: t') (c :: rest) = true
      · rw [if_pos hlw] at hocc
        rcases occursIn_append_cases hocc with hin | hin | ⟨t1, t2, ht, ht1, ht2, ⟨u, hu⟩, _⟩
        · rcases occursIn_maskChars_cases (by simp) hin with hs' | ht'
          · exact hstar hs'
          · exact htok ht'
        · have hdl : (rest.drop t'.length).length ≤ n := by
            simp only [List.length_drop]
            omega
          exact ih _ hdl hin
        · have hst := star_mem_of_mask_sfx ht1 ⟨u, hu⟩
          exact hstar (by rw [ht]; exact List.mem_append.2 (Or.inl hst))
      · rw [if_neg hlw] at hocc
        rcases occursIn_cons_elim hocc with ⟨v, hv⟩ | hin
        · obtain ⟨h1, h2⟩ := List.cons.inj (by simpa using hv)
          obtain ⟨v', hv'⟩ := leadSeg_replace a t' n rest t' hlen'
            (fun hx => hstar (List.mem_cons_of_mem a hx)) ⟨v, h2⟩
          have : leadsWith (a :: t') (c :: rest) = true := by
            rw [leadsWith_iff]
            exact ⟨v', by rw [h1, hv']; rfl⟩
          exact hlw this
        · exact ih rest hlen' hin

/-- A replacement pass for any pattern cannot create an occurrence of a
string `p` that contains no star and is not a substring of `TOKEN`: any
such occurrence in the output was already present in the input. -/
theorem occursIn_repGo_transfer (a : Char) (t' : List Char)
    (p : List Char) (hpstar : '*' ∉ p) (hptok : ¬ occursIn p tokenChars) :
    ∀ (n : Nat) (s : List Char), s.length ≤ n →
      occursIn p (repGo a t' maskChars 0 s) → occursIn p s := by
  intro n
  induction n with
  | zero =>
    intro s hlen hocc
    have hs : s = [] := List.length_eq_zero.1 (Nat.le_zero.1 hlen)
    subst hs
    exact hocc
  | succ n ih =>
    intro s hlen hocc
    cases s with
    | nil => exact hocc
    | cons c rest =>
      have hlen' : rest.length ≤ n := by
        simp only [List.length_cons] at hlen
        omega
      rw [repGo_zero_cons] at hocc
      by_cases hlw : leadsWith (a :: t') (c :: rest) = true
      · rw [if_pos hlw] at hocc
        rcases occursIn_append_cases hocc with hin | hin | ⟨t1, t2, ht, ht1, ht2, ⟨u, hu⟩, _⟩
        · cases hpc : p with
          | nil =>
            subst hpc
            exact absurd (occursIn_nil_pattern tokenChars) hptok
          | cons p0 p' =>
            subst hpc
            rcases occursIn_maskChars_cases (by simp) hin with hs' | ht'
            · exact absurd hs' hpstar
            · exact absurd ht' hptok
        · have hdl : (rest.drop t'.length).length ≤ n := by
            simp only [List.length_drop]
            omega
          exact occursIn_cons_of c (occursIn_of_drop t'.length (ih _ hdl hin))
        · have hst := star_mem_of_mask_sfx ht1 ⟨u, hu⟩
          exact absurd (by rw [ht]; exact List.mem_append.2 (Or.inl hst)) hpstar
      · rw [if_neg hlw] at hocc
        rcases occursIn_cons_elim hocc with ⟨v, hv⟩ | hin
        · cases hpc : p with
          | nil =>
            subst hpc
            exact absurd (occursIn_nil_pattern tokenChars) hptok
          | cons p0 p' =>
            subst hpc
            obtain ⟨h1, h2⟩ := List.cons.inj (by simpa using hv)
            obtain ⟨v', hv'⟩ := leadSeg_replace a t' n rest p' hlen'
              (fun hx => hpstar (List.mem_cons_of_mem p0 hx)) ⟨v, h2⟩
            exact ⟨[], v', by rw [h1, hv']; rfl⟩
        · exact occursIn_cons_of c (ih rest hlen' hin)

theorem not_occursIn_replaceAllL_self (t : List Char) (ht : t ≠ [])
    (hstar : '*' ∉ t) (htok : ¬ occursIn t tokenChars) (s : List Char) :
    ¬ occursIn t (replaceAllL t maskChars s) := by
  cases t with
  | nil => exact absurd rfl ht
  | cons a t' =>
    exact not_occursIn_repGo_self a t' hstar htok s.length s (Nat.le_refl _)

theorem occursIn_replaceAllL_transfer (t p : List Char)
    (hpstar : '*' ∉ p) (hptok : ¬ occursIn p tokenChars) (s : List Char)
    (h : occursIn p (replaceAllL t maskChars s)) : occursIn p s := by
  cases t with
  | nil => exact h
  | cons a t' =>
    exact occursIn_repGo_transfer a t' p hpstar hptok s.length s (Nat.le_refl _) h

/-- The token list assembled by `sanitize_output` (security_utils.py lines
29–40): caller-supplied tokens, then `GH_TOKEN` and `GEMINI_API_KEY` when
the environment variables are non-empty. -/
def sanitizeTokenList (ghToken geminiKey : List Char)
    (sensitiveTokens : List (List Char)) : List (List Char) :=
  sensitiveTokens ++ (if ghToken ≠ [] then [ghToken] else [])
    ++ (if geminiKey ≠ [] then [geminiKey] else [])

/-- `sanitize_output(text, sensitive_tokens)` (security_utils.py lines
15–48): falsy text is returned as is, otherwise each non-empty token is
replaced by `***TOKEN***` in sequence. -/
def sanitize_output (ghToken geminiKey : List Char)
    (sensitiveTokens : List (List Char)) (text : List Char) : List Char :=
  if text = [] then text
  else
    (sanitizeTokenList ghToken geminiKey sensitiveTokens).foldl
      (fun acc tok => if tok ≠ [] then replaceAllL tok maskChars acc else acc) text

/-- Observable result of `subprocess.run` for a command. -/
structure CmdResult where
  returncode : Int
  stdout : List Char
  stderr : List Char
deriving DecidableEq

/-- Outcome of `run_command_safe`: the completed process, or a raised
`CalledProcessError` carrying the surfaced output text. -/
inductive RunOutcome where
  | completed (r : CmdResult)
  | calledProcessError (returncode : Int) (output errOutput : List Char)
deriving DecidableEq

/-- `run_command_safe(cmd, check, …)` (security_utils.py lines 51–92): with
`check` set and a nonzero exit code the error is raised with stdout and
stderr sanitized first; otherwise the completed result is returned. -/
def run_command_safe (ghToken geminiKey : List Char) (check : Bool)
    (r : CmdResult) : RunOutcome :=
  if check && !(r.returncode == 0) then
    .calledProcessError r.returncode (sanitize_output ghToken geminiKey [] r.stdout)
      (sanitize_output ghToken geminiKey [] r.stderr)
  else .completed r

/-- C9 counterexample: with `GH_TOKEN` = `"*"` (and API key `"k"`) the
sanitized output of `"a*b"` is `"a***TOKEN***b"`, which still contains the
credential value `"*"` — replacing a secret that shares characters with the
mask `***TOKEN***` re-introduces occurrences, refuting "contains no
occurrence of the credential values ... regardless". -/
theorem C9_counterexample :
    sanitize_output ['*'] ['k'] [] ['a', '*', 'b'] =
      ['a', '*', '*', '*', 'T', 'O', 'K', 'E', 'N', '*', '*', '*', 'b']
    ∧ occursIn ['*'] (sanitize_output ['*'] ['k'] [] ['a', '*', 'b']) := by
  constructor
  · decide
  · refine ⟨['a'], ['*', '*', 'T', 'O', 'K', 'E', 'N', '*', '*', '*', 'b'], ?_⟩
    decide

theorem fold_sanitize_preserves (tok : List Char) (hpstar : '*' ∉ tok)
    (hptok : ¬ occursIn tok tokenChars) :
    ∀ (toks : List (List Char)) (text : List Char), ¬ occursIn tok text →
      ¬ occursIn tok (toks.foldl
        (fun acc t => if t ≠ [] then replaceAllL t maskChars acc else acc) text) := by
  intro toks
  induction toks with
  | nil => intro text hn; exact hn
  | cons t0 rest ih =>
    intro text hn
    rw [List.foldl_cons]
    apply ih
    by_cases h0 : t0 = []
    · rw [if_neg (by simp [h0])]
      exact hn
    · rw [if_pos h0]
      intro hocc
      exact hn (occursIn_replaceAllL_transfer t0 tok hpstar hptok text hocc)

theorem fold_sanitize_removes :
    ∀ (toks : List (List Char)) (text : List Char) (tok : List Char), tok ∈ toks →
      (∀ t ∈ toks, t ≠ [] ∧ '*' ∉ t ∧ ¬ occursIn t tokenChars) →
      ¬ occursIn tok (toks.foldl
        (fun acc t => if t ≠ [] then replaceAllL t maskChars acc else acc) text) := by
  intro toks
  induction toks with
  | nil => intro text tok htok _; exact absurd htok (List.not_mem_nil tok)
  | cons t0 rest ih =>
    intro text tok htok hall
    rw [List.foldl_cons]
    obtain ⟨h0ne, h0star, h0tok⟩ := hall t0 (List.mem_cons_self t0 rest)
    rcases List.mem_cons.1 htok with rfl | hmem
    · apply fold_sanitize_preserves tok h0star h0tok
      rw [if_pos h0ne]
      exact not_occursIn_replaceAllL_self tok h0ne h0star h0tok text
    · exact ih _ tok hmem (fun t ht => hall t (List.mem_cons_of_mem t0 ht))

theorem sanitize_output_not_occursIn (ghToken geminiKey : List Char)
    (extra : List (List Char)) (tok : List Char)
    (htok : tok ∈ sanitizeTokenList ghToken geminiKey extra)
    (hall : ∀ t ∈ sanitizeTokenList ghToken geminiKey extra,
      t ≠ [] ∧ '*' ∉ t ∧ ¬ occursIn t tokenChars)
    (text : List Char) :
    ¬ occursIn tok (sanitize_output ghToken geminiKey extra text) := by
  unfold sanitize_output
  by_cases htext : text = []
  · rw [if_pos htext]
    subst htext
    exact not_occursIn_nil (hall tok htok).1
  · rw [if_neg htext]
    exact fold_sanitize_removes _ text tok htok hall

/-- C9 (amended): provided each credential value is non-empty, contains no
`*` character, and is not a contiguous substring of the letters `TOKEN` —
conditions every real GitHub token or Gemini API key meets — every
occurrence of every secret is removed from sanitized text, and the error
raised by the safe command runner on a failed checked command surfaces only
sanitized stdout/stderr, hence no occurrence of either credential.  (The
counterexample shows a credential containing `*` can survive the
sequential replacement, so the unrestricted claim fails.) -/
theorem C9_no_credential_in_surfaced_output (ghToken geminiKey : List Char)
    (hgh : ghToken ≠ []) (hgk : geminiKey ≠ [])
    (hghs : '*' ∉ ghToken) (hgks : '*' ∉ geminiKey)
    (hght : ¬ occursIn ghToken tokenChars) (hgkt : ¬ occursIn geminiKey tokenChars) :
    (∀ (extra : List (List Char)) (text : List Char),
      (∀ t ∈ extra, t ≠ [] ∧ '*' ∉ t ∧ ¬ occursIn t tokenChars) →
      (∀ t ∈ extra, ¬ occursIn t (sanitize_output ghToken geminiKey extra text))
      ∧ ¬ occursIn ghToken (sanitize_output ghToken geminiKey extra text)
      ∧ ¬ occursIn geminiKey (sanitize_output ghToken geminiKey extra text))
    ∧ (∀ r : CmdResult, r.returncode ≠ 0 →
        run_command_safe ghToken geminiKey true r =
          .calledProcessError r.returncode
            (sanitize_output ghToken geminiKey [] r.stdout)
            (sanitize_output ghToken geminiKey [] r.stderr)
        ∧ ¬ occursIn ghToken (sanitize_output ghToken geminiKey [] r.stdout)
        ∧ ¬ occursIn geminiKey (sanitize_output ghToken geminiKey [] r.stdout)
        ∧ ¬ occursIn ghToken (sanitize_output ghToken geminiKey [] r.stderr)
        ∧ ¬ occursIn geminiKey (sanitize_output ghToken geminiKey [] r.stderr)) := by
  have hmemgh : ∀ extra : List (List Char),
      ghToken ∈ sanitizeTokenList ghToken geminiKey extra := by
    intro extra
    unfold sanitizeTokenList
    rw [if_pos hgh]
    exact List.mem_append.2 (Or.inl (List.mem_append.2 (Or.inr (by simp))))
  have hmemgk : ∀ extra : List (List Char),
      geminiKey ∈ sanitizeTokenList ghToken geminiKey extra := by
    intro extra
    unfold sanitizeTokenList
    rw [if_pos hgk]
    exact List.mem_append.2 (Or.inr (by simp))
  have hallof : ∀ extra : List (List Char),
      (∀ t ∈ extra, t ≠ [] ∧ '*' ∉ t ∧ ¬ occursIn t tokenChars) →
      ∀ t ∈ sanitizeTokenList ghToken geminiKey extra,
        t ≠ [] ∧ '*' ∉ t ∧ ¬ occursIn t tokenChars := by
    intro extra hex t ht
    unfold sanitizeTokenList at ht
    rcases List.mem_append.1 ht with h1 | h2
    · rcases List.mem_append.1 h1 with h3 | h4
      · exact hex t h3
      · rw [if_pos hgh] at h4
        obtain rfl : t = ghToken := by simpa using h4
        exact ⟨hgh, hghs, hght⟩
    · rw [if_pos hgk] at h2
      obtain rfl : t = geminiKey := by simpa using h2
      exact ⟨hgk, hgks, hgkt⟩
  constructor
  · intro extra text hex
    refine ⟨?_, ?_, ?_⟩
    · intro t ht
      exact sanitize_output_not_occursIn ghToken geminiKey extra t
        (by unfold sanitizeTokenList
            exact List.mem_append.2 (Or.inl (List.mem_append.2 (Or.inl ht))))
        (hallof extra hex) text
    · exact sanitize_output_not_occursIn ghToken geminiKey extra ghToken
        (hmemgh extra) (hallof extra hex) text
    · exact sanitize_output_not_occursIn ghToken geminiKey extra geminiKey
        (hmemgk extra) (hallof extra hex) text
  · intro r hr
    have hherr : ∀ t, t ∈ sanitizeTokenList ghToken geminiKey [] →
        t ≠ [] ∧ '*' ∉ t ∧ ¬ occursIn t tokenChars :=
      hallof [] (by intro t ht; exact absurd ht (List.not_mem_nil t))
    refine ⟨?_, ?_, ?_, ?_, ?_⟩
    · unfold run_command_safe
      rw [if_pos (by simp [hr])]
    · exact sanitize_output_not_occursIn ghToken geminiKey [] ghToken
        (hmemgh []) hherr r.stdout
    · exact sanitize_output_not_occursIn ghToken geminiKey [] geminiKey
        (hmemgk []) hherr r.stdout
    · exact sanitize_output_not_occursIn ghToken geminiKey [] ghToken
        (hmemgh []) hherr r.stderr
    · exact sanitize_output_not_occursIn ghToken geminiKey [] geminiKey
        (hmemgk []) hherr r.stderr

/-- Witness for the amended C9: realistic-shaped secrets containing the
mask's letters (`ghTOK3N`, `keyN0TE`), a failed checked command whose
stderr contains the GitHub token — the error surfaces sanitized text and
contains no occurrence of either secret. -/
theorem C9_no_credential_in_surfaced_output_witness :
    run_command_safe "ghTOK3N".toList "keyN0TE".toList true
        ⟨1, "ok".toList, "x ghTOK3N y".toList⟩ =
      .calledProcessError 1
        (sanitize_output "ghTOK3N".toList "keyN0TE".toList [] "ok".toList)
        (sanitize_output "ghTOK3N".toList "keyN0TE".toList [] "x ghTOK3N y".toList)
    ∧ ¬ occursIn "ghTOK3N".toList
        (sanitize_output "ghTOK3N".toList "keyN0TE".toList [] "x ghTOK3N y".toList)
    ∧ ¬ occursIn "keyN0TE".toList
        (sanitize_output "ghTOK3N".toList "keyN0TE".toList [] "x ghTOK3N y".toList) := by
  have hmain := (C9_no_credential_in_surfaced_output "ghTOK3N".toList "keyN0TE".toList
    (by decide) (by decide) (by decide) (by decide)
    (not_occursIn_of_containsSeg_eq_false (by decide))
    (not_occursIn_of_containsSeg_eq_false (by decide))).2
    ⟨1, "ok".toList, "x ghTOK3N y".toList⟩ (by decide)
  exact ⟨hmain.1, hmain.2.2.2.1, hmain.2.2.2.2⟩

/-! ## Index storage round-trip
(`save_index` / `load_all_indexes`, doc_index.py lines 315–373)

The index directory is modelled as an association list from full file name
to index content.  `save_index` writes `folder.replace('/', '-') +
".index.md"`; the loader globs `*.index.md`, takes `Path.stem` (the name
minus the final `.md`), and applies `stem.replace(".index", "")` — which
removes EVERY occurrence of `.index` in the stem, not just the appended
suffix — before turning dashes back into slashes. -/

/-- The letters `index`. -/
def ixTail : List Char := ['i', 'n', 'd', 'e', 'x']

/-- The string `".index"` removed by the loader. -/
def dotIndex : List Char := '.' :: ixTail

/-- The suffix `".md"`. -/
def mdSuffix : List Char := ['.', 'm', 'd']

/-- The full file suffix `".index.md"` appended by `save_index`. -/
def indexSuffix : List Char := dotIndex ++ mdSuffix

/-- The filename encoding used by `save_index`: `folder.replace('/', '-')`
(doc_index.py line 329). -/
def encodeIndexName (f : List Char) : List Char :=
  f.map (fun c => if c = '/' then '-' else c)

/-- `Path(name).stem` for a `*.index.md` file: the name minus the final
three characters `".md"`. -/
def stemOf (name : List Char) : List Char := name.take (name.length - 3)

/-- The name decoding used by `load_all_indexes` (doc_index.py lines
366–370): `stem.replace(".index", "")` (every occurrence), then every dash
becomes a slash; when that produces no slash the dashless replacement
result is kept (the code recomputes `stem.replace(".index", "")`). -/
def decodeIndexName (stem : List Char) : List Char :=
  if '/' ∈ (replaceAllL dotIndex [] stem).map (fun c => if c = '-' then '/' else c)
  then (replaceAllL dotIndex [] stem).map (fun c => if c = '-' then '/' else c)
  else replaceAllL dotIndex [] stem

/-- `save_index(folder, index_content)`: write (or overwrite) the file
named `folder.replace('/', '-') + ".index.md"`. -/
def save_index (folder : List Char) (content : String)
    (store : List (List Char × String)) : List (List Char × String) :=
  aupdate (encodeIndexName folder ++ indexSuffix) content store

/-- `load_all_indexes()`: for every `*.index.md` file, decode its stem into
a folder key. -/
def load_all_indexes (store : List (List Char × String)) :
    List (List Char × String) :=
  (store.filter (fun nc => endsWithL indexSuffix nc.1)).foldl
    (fun m nc => aupdate (decodeIndexName (stemOf nc.1)) nc.2 m) []

/-- C10 counterexample: the folder name `my-folder` contains a dash; saving
and re-loading yields the key `my/folder`, not `my-folder` — the dash
encoding is not injective, so the loader does not invert it for names that
themselves contain dashes, refuting the "for all folder names including
those that contain dashes" claim. -/
theorem C10_counterexample :
    load_all_indexes (save_index "my-folder".toList "INDEX CONTENT" []) =
      [("my/folder".toList, "INDEX CONTENT")]
    ∧ alookup "my-folder".toList
        (load_all_indexes (save_index "my-folder".toList "INDEX CONTENT" [])) = none := by
  decide

/-- A second failure mode of the loader (motivating the `.index` exclusion
in the amended claim): `stem.replace(".index", "")` removes every
occurrence, so the dash-free folder `a.indexb` is re-loaded as `ab`. -/
theorem dotIndex_name_collapse :
    load_all_indexes (save_index "a.indexb".toList "X" []) =
      [("ab".toList, "X")]
    ∧ alookup "a.indexb".toList
        (load_all_indexes (save_index "a.indexb".toList "X" [])) = none := by
  decide

theorem map_dash_swap_id (F : List Char) (hd : '-' ∉ F) :
    (F.map (fun c => if c = '/' then '-' else c)).map
      (fun c => if c = '-' then '/' else c) = F := by
  induction F with
  | nil => rfl
  | cons c F' ih =>
    have hc : c ≠ '-' := fun he => hd (he ▸ List.mem_cons_self c F')
    have hd' : '-' ∉ F' := fun hm => hd (List.mem_cons_of_mem c hm)
    simp only [List.map_cons, ih hd']
    by_cases hcs : c = '/'
    · simp [hcs]
    · simp [hcs, hc]

theorem map_slash_id (F : List Char) (hs : '/' ∉ F) :
    F.map (fun c => if c = '/' then '-' else c) = F := by
  induction F with
  | nil => rfl
  | cons c F' ih =>
    have hc : c ≠ '/' := fun he => hs (he ▸ List.mem_cons_self c F')
    have hs' : '/' ∉ F' := fun hm => hs (List.mem_cons_of_mem c hm)
    simp [hc, ih hs']

/-- Greedy removal of `".index"` from `s ++ ".index"` gives back `s` when
`".index"` does not occur in `s`: no occurrence can straddle the boundary
because `".index"` has no nontrivial border (no proper suffix equal to a
proper prefix), checked by the five concrete cases. -/
theorem repGo_dotIndex_append :
    ∀ s : List Char, ¬ occursIn dotIndex s →
      repGo '.' ixTail [] 0 (s ++ dotIndex) = s := by
  intro s
  induction s with
  | nil => intro _; decide
  | cons c s' ih =>
    intro hno
    show repGo '.' ixTail [] 0 (c :: (s' ++ dotIndex)) = c :: s'
    rw [repGo_zero_cons]
    by_cases hlw : leadsWith ('.' :: ixTail) (c :: (s' ++ dotIndex)) = true
    · rw [if_pos hlw]
      exfalso
      obtain ⟨v, hv⟩ := (leadsWith_iff _ _).1 hlw
      have hv' : (c :: s') ++ dotIndex = dotIndex ++ v := hv
      rcases List.append_eq_append_iff.1 hv' with ⟨w, hw1, hw2⟩ | ⟨w, hw1, hw2⟩
      · -- hw1 : dotIndex = (c :: s') ++ w, hw2 : dotIndex = w ++ v
        by_cases hwnil : w = []
        · subst hwnil
          have hds : dotIndex = c :: s' := by simpa using hw1
          exact hno ⟨[], [], by simp [hds]⟩
        · have h6 : dotIndex.length = 6 := by decide
          have hL := congrArg List.length hw1
          rw [h6, List.length_append] at hL
          have hwd : w = dotIndex.drop (c :: s').length := by
            rw [hw1]
            exact (List.drop_left (c :: s') w).symm
          have hwt : w = dotIndex.take w.length := by
            rw [hw2]
            exact (List.take_left w v).symm
          have hwlen : w.length = 6 - (c :: s').length := by omega
          have hk1 : 1 ≤ (c :: s').length := by simp
          have hk5 : (c :: s').length ≤ 5 := by
            have hwpos : 0 < w.length := List.length_pos.2 hwnil
            omega
          have heq : dotIndex.drop (c :: s').length =
              dotIndex.take (6 - (c :: s').length) := by
            rw [← hwlen, ← hwt, ← hwd]
          obtain ⟨k, hk⟩ : ∃ k, k = (c :: s').length := ⟨_, rfl⟩
          rw [← hk] at heq hk1 hk5
          interval_cases k
          all_goals exact absurd heq (by decide)
      · -- hw1 : (c :: s') = dotIndex ++ w
        exact hno ⟨[], w, by simpa using hw1⟩
    · rw [if_neg hlw]
      have hno' : ¬ occursIn dotIndex s' := fun hx => hno (occursIn_cons_of c hx)
      rw [ih hno']

theorem replaceAll_dotIndex_append (s : List Char) (hno : ¬ occursIn dotIndex s) :
    replaceAllL dotIndex [] (s ++ dotIndex) = s :=
  repGo_dotIndex_append s hno

theorem map_encode_eq_self {l y : List Char} (hy : '-' ∉ y)
    (h : l.map (fun c => if c = '/' then '-' else c) = y) : l = y := by
  induction l generalizing y with
  | nil => exact h
  | cons c l' ih =>
    cases y with
    | nil => simp at h
    | cons y0 y' =>
      simp only [List.map_cons, List.cons.injEq] at h
      obtain ⟨h1, h2⟩ := h
      have hy0 : y0 ≠ '-' := fun he => hy (he ▸ List.mem_cons_self y0 y')
      have hc : c = y0 := by
        by_cases hcs : c = '/'
        · rw [if_pos hcs] at h1
          exact absurd h1.symm hy0
        · rw [if_neg hcs] at h1
          exact h1
      rw [hc, ih (fun hm => hy (List.mem_cons_of_mem y0 hm)) h2]

/-- The `/ → -` encoding cannot create an occurrence of `".index"` (whose
characters include no dash): an occurrence in the encoded name was already
present in the folder name. -/
theorem not_occursIn_dotIndex_encode (F : List Char)
    (h : ¬ occursIn dotIndex F) : ¬ occursIn dotIndex (encodeIndexName F) := by
  intro hocc
  apply h
  obtain ⟨u, v, huv⟩ := hocc
  rw [List.append_assoc] at huv
  unfold encodeIndexName at huv
  obtain ⟨F1, F23, hF, hm1, hm2⟩ := List.map_eq_append_iff.1 huv
  obtain ⟨F2, F3, hF23, hm3, hm4⟩ := List.map_eq_append_iff.1 hm2
  have hF2 : F2 = dotIndex := map_encode_eq_self (by decide) hm3
  exact ⟨F1, F3, by rw [hF, hF23, hF2, List.append_assoc]⟩

/-- C10 (amended): the round-trip `load_all_indexes ∘ save_index` restores
the key `F` with its content for every folder name that contains no dash
and no `".index"` substring (slashes, the case the encoding exists for,
included).  A name containing a dash is re-loaded with dashes turned into
slashes, and a name containing `".index"` has those characters removed —
both shown above. -/
theorem C10_round_trip_no_dash (F : List Char) (content : String)
    (hd : '-' ∉ F) (hni : containsSeg dotIndex F = false) :
    load_all_indexes (save_index F content []) = [(F, content)]
    ∧ alookup F (load_all_indexes (save_index F content [])) = some content := by
  have hnocc : ¬ occursIn dotIndex F := not_occursIn_of_containsSeg_eq_false hni
  have hnoccE : ¬ occursIn dotIndex (encodeIndexName F) :=
    not_occursIn_dotIndex_encode F hnocc
  have hendsWith : endsWithL indexSuffix (encodeIndexName F ++ indexSuffix) = true := by
    unfold endsWithL
    rw [leadsWith_iff]
    exact ⟨(encodeIndexName F).reverse, by rw [List.reverse_append]⟩
  have hstem : stemOf (encodeIndexName F ++ indexSuffix) =
      encodeIndexName F ++ dotIndex := by
    unfold stemOf indexSuffix
    rw [← List.append_assoc]
    have hlen : (encodeIndexName F ++ dotIndex ++ mdSuffix).length - 3 =
        (encodeIndexName F ++ dotIndex).length := by
      simp only [List.length_append]
      have h3 : mdSuffix.length = 3 := by decide
      omega
    rw [hlen]
    exact List.take_left _ _
  have hbase : replaceAllL dotIndex [] (encodeIndexName F ++ dotIndex) =
      encodeIndexName F := replaceAll_dotIndex_append _ hnoccE
  have hmap : (encodeIndexName F).map (fun c => if c = '-' then '/' else c) = F :=
    map_dash_swap_id F hd
  have hdecode : decodeIndexName (encodeIndexName F ++ dotIndex) = F := by
    unfold decodeIndexName
    rw [hbase, hmap]
    by_cases hsF : '/' ∈ F
    · rw [if_pos hsF]
    · rw [if_neg hsF]
      exact map_slash_id F hsF
  have hload : load_all_indexes (save_index F content []) = [(F, content)] := by
    unfold load_all_indexes save_index
    simp only [aupdate]
    rw [List.filter_cons_of_pos]
    · simp only [List.filter_nil, List.foldl_cons, List.foldl_nil]
      rw [hstem, hdecode]
      rfl
    · exact hendsWith
  refine ⟨hload, ?_⟩
  rw [hload]
  simp [alookup]

/-- Witness for the amended C10: a nested (slash-containing, dash-free,
`.index`-free) folder name survives the round-trip. -/
theorem C10_round_trip_no_dash_witness :
    load_all_indexes (save_index "guides/install".toList "IDX" []) =
      [("guides/install".toList, "IDX")]
    ∧ alookup "guides/install".toList
        (load_all_indexes (save_index "guides/install".toList "IDX" [])) = some "IDX" :=
  C10_round_trip_no_dash "guides/install".toList "IDX" (by decide) (by decide)

end CodeToDocs
